import Mathlib

/-!
Verification development for the deep-research orchestration core
(src/utils/deep_research.py).

Part 1 embeds the URL normalizer.  The source function normalize_url is
built on CPython urllib.parse (urlparse / urlunparse); the embedding below
follows the CPython 3.11 source of urlsplit, urlparse, _splitparams,
_splitnetloc, _check_bracketed_host and urlunsplit character by character,
working on Lean lists of characters.  Exceptions raised by the library
(ValueError on malformed bracketed hosts) are modelled with Option: a none
result of urlparse stands for a raised ValueError, which normalize_url
catches, returning its input unchanged.  The NFKC check _checknetloc only
raises for certain non-ASCII netlocs and is modelled as a no-op; this is
exact for all ASCII inputs.
-/

namespace WebUI

/-- Unsafe bytes removed anywhere in the URL by CPython urlsplit
(tab, carriage return, line feed). -/
def isUnsafeChar (c : Char) : Bool :=
  c == '\t' || c == '\r' || c == '\n'

/-- Leading C0 control characters and space, stripped from the front of the
URL by CPython urlsplit (code points 0x00 through 0x20). -/
def isC0OrSpace (c : Char) : Bool :=
  c.toNat ≤ 32

/-- Model of the sanitizing done at the start of urlsplit: left-strip the
C0-control-or-space characters, then delete every tab, CR and LF. -/
def sanitizeUrl (l : List Char) : List Char :=
  (l.dropWhile isC0OrSpace).filter (fun c => !(isUnsafeChar c))

/-- Characters allowed in a scheme name (scheme_chars in CPython). -/
def isSchemeChar (c : Char) : Bool :=
  c.isAlpha || c.isDigit || c == '+' || c == '-' || c == '.'

/-- Scheme detection of urlsplit: the text before the first colon is taken
as the scheme when the colon is at index at least 1, the first character is
an ASCII letter and every character before the colon is a scheme character;
the scheme is lower-cased.  Returns (scheme, remainder). -/
def splitScheme (l : List Char) : List Char × List Char :=
  let pre := l.takeWhile (fun c => c != ':')
  if pre.length < l.length ∧ 0 < pre.length ∧
      (l.headD ' ').isAlpha = true ∧ pre.all isSchemeChar = true then
    (pre.map Char.toLower, l.drop (pre.length + 1))
  else
    ([], l)

/-- Delimiters ending the netloc portion (_splitnetloc looks for the
earliest of the three). -/
def isNetlocDelim (c : Char) : Bool :=
  c == '/' || c == '?' || c == '#'

/-- Model of _splitnetloc applied after the leading two slashes: the netloc
is everything up to the first slash, question mark or hash. -/
def splitNetloc (l : List Char) : List Char × List Char :=
  (l.takeWhile (fun c => !(isNetlocDelim c)), l.dropWhile (fun c => !(isNetlocDelim c)))

/-- ASCII hexadecimal digit test (the _HEX_DIGITS set of ipaddress). -/
def isHexDigitChar (c : Char) : Bool :=
  c.isDigit || ('a' ≤ c && c ≤ 'f') || ('A' ≤ c && c ≤ 'F')

/-- Validity of one IPv4 octet per ipaddress._parse_octet: nonempty, ASCII
digits only, at most 3 characters, no leading zero, value at most 255. -/
def validOctet (s : List Char) : Bool :=
  0 < s.length && s.length ≤ 3 && s.all Char.isDigit &&
    (s.length == 1 || s.headD '0' != '0') &&
    (s.foldl (fun a c => a * 10 + (c.toNat - 48)) 0) ≤ 255

/-- Validity of a dotted-quad IPv4 address per ipaddress.IPv4Address:
exactly four octets, each valid. -/
def validIPv4 (s : List Char) : Bool :=
  let octets := s.splitOn '.'
  octets.length == 4 && octets.all validOctet

/-- Validity of one IPv6 hextet per ipaddress._parse_hextet: between one
and four hexadecimal digits. -/
def validHextet (s : List Char) : Bool :=
  0 < s.length && s.length ≤ 4 && s.all isHexDigitChar

/-- Shared tail of the IPv6 validity check, applied after the optional
IPv4 suffix has been replaced by two hextets: at most 9 parts, at most
one empty inner part (the double colon), endpoint emptiness only next to
the double colon, and every remaining part a valid hextet. -/
def validIPv6Parts (parts : List (List Char)) : Bool :=
  if parts.length > 9 then false
  else
    let inner : List (List Char) := (parts.drop 1).dropLast
    let emptyInner : Nat := inner.countP (fun p => p.isEmpty)
    if emptyInner > 1 then false
    else if emptyInner == 1 then
      let skipIndex := 1 + (inner.findIdx (fun p => p.isEmpty))
      let partsHi := skipIndex
      let partsLo := parts.length - skipIndex - 1
      let headEmpty := (parts.headD [' ']).isEmpty
      let lastEmpty := ((parts.getLast?).getD [' ']).isEmpty
      let partsHi := if headEmpty then partsHi - 1 else partsHi
      let partsLo := if lastEmpty then partsLo - 1 else partsLo
      if headEmpty ∧ partsHi ≠ 0 then false
      else if lastEmpty ∧ partsLo ≠ 0 then false
      else if 8 - (partsHi + partsLo) < 1 ∨ partsHi + partsLo > 8 then false
      else
        (parts.take partsHi).all validHextet &&
          (parts.drop (parts.length - partsLo)).all validHextet
    else
      if parts.length ≠ 8 then false
      else if (parts.headD [' ']).isEmpty then false
      else if ((parts.getLast?).getD [' ']).isEmpty then false
      else parts.all validHextet

/-- Validity of an IPv6 address body (after the scope id is removed) per
ipaddress IPv6 _ip_int_from_string: split on colons, at least 3 parts,
optional IPv4 suffix converted to two hextets, then the shared check. -/
def validIPv6Body (s : List Char) : Bool :=
  if s.isEmpty then false
  else
    let parts := s.splitOn ':'
    if parts.length < 3 then false
    else
      match parts.getLast? with
      | some last =>
          if '.' ∈ last then
            if validIPv4 last then validIPv6Parts (parts.dropLast ++ [['0'], ['0']])
            else false
          else validIPv6Parts parts
      | none => validIPv6Parts parts

/-- Validity of an IPv6 address with an optional scope id, per
ipaddress.IPv6Address: an optional percent-separated nonempty scope id
without further percent signs, then a valid address body. -/
def validIPv6 (s : List Char) : Bool :=
  let addr := s.takeWhile (fun c => c != '%')
  if addr.length < s.length then
    let scope := s.drop (addr.length + 1)
    if scope.isEmpty || '%' ∈ scope then false else validIPv6Body addr
  else validIPv6Body s

/-- Validity of the text between the brackets of a bracketed netloc, per
urllib.parse._check_bracketed_host (CPython 3.11): an IPvFuture literal
(letter v, hexadecimal digits, a dot, then at least one character) or a
valid IPv6 address; a bracketed IPv4 address is rejected. -/
def validBracketedHost (h : List Char) : Bool :=
  match h with
  | 'v' :: rest =>
      let hx := rest.takeWhile isHexDigitChar
      0 < hx.length && (rest.drop hx.length).headD ' ' == '.' &&
        0 < (rest.drop (hx.length + 1)).length
  | _ => validIPv6 h

/-- Bracket handling of urlsplit on the netloc: a bracket present without
its partner raises ValueError; when both are present the text between the
first opening bracket and the following closing bracket must be a valid
bracketed host, else ValueError.  Returns false when a ValueError would be
raised. -/
def netlocBracketsOk (netloc : List Char) : Bool :=
  let hasL := '[' ∈ netloc
  let hasR := ']' ∈ netloc
  if hasL ∧ ¬hasR then false
  else if hasR ∧ ¬hasL then false
  else if hasL ∧ hasR then
    let afterL := (netloc.dropWhile (fun c => c != '[')).drop 1
    validBracketedHost (afterL.takeWhile (fun c => c != ']'))
  else true

/-- Result record of urlsplit restricted to the fields the source uses. -/
structure SplitResult where
  scheme : List Char
  netloc : List Char
  path : List Char
  query : List Char
  fragment : List Char
deriving DecidableEq, Repr

/-- Model of urllib.parse.urlsplit on an already sanitized character list:
scheme detection, optional netloc after two slashes with the bracket
check, then the fragment split at the first hash and the query split at
the first question mark.  A none result models a raised ValueError. -/
def urlsplitCore (l0 : List Char) : Option SplitResult :=
  let l := sanitizeUrl l0
  let (scheme, rest) := splitScheme l
  let (netloc, rest) :=
    if rest.take 2 = ['/', '/'] then splitNetloc (rest.drop 2) else ([], rest)
  if netlocBracketsOk netloc then
    let (beforeFrag, fragment) :=
      (rest.takeWhile (fun c => c != '#'),
        (rest.dropWhile (fun c => c != '#')).drop 1)
    let (path, query) :=
      (beforeFrag.takeWhile (fun c => c != '?'),
        (beforeFrag.dropWhile (fun c => c != '?')).drop 1)
    some ⟨scheme, netloc, path, query, fragment⟩
  else
    none

/-- Schemes for which urlparse separates parameters from the path
(uses_params in CPython). -/
def usesParams : List (List Char) :=
  [[], ['f', 't', 'p'], ['h', 'd', 'l'],
   ['p', 'r', 'o', 's', 'p', 'e', 'r', 'o'],
   ['h', 't', 't', 'p'], ['i', 'm', 'a', 'p'],
   ['h', 't', 't', 'p', 's'], ['s', 'h', 't', 't', 'p'],
   ['r', 't', 's', 'p'], ['r', 't', 's', 'p', 's'],
   ['r', 't', 's', 'p', 'u'], ['s', 'i', 'p'],
   ['s', 'i', 'p', 's'], ['m', 'm', 's'],
   ['s', 'f', 't', 'p'], ['t', 'e', 'l']]

/-- Model of urllib.parse._splitparams: when the path contains a slash,
split at the first semicolon at or after the last slash; otherwise split
at the first semicolon.  Returns (path, params). -/
def splitParams (p : List Char) : List Char × List Char :=
  if '/' ∈ p then
    let tl := (p.reverse.takeWhile (fun c => c != '/')).reverse
    if ';' ∈ tl then
      let seg := tl.takeWhile (fun c => c != ';')
      (p.take (p.length - tl.length) ++ seg, tl.drop (seg.length + 1))
    else (p, [])
  else
    if ';' ∈ p then
      (p.takeWhile (fun c => c != ';'),
        (p.dropWhile (fun c => c != ';')).drop 1)
    else (p, [])

/-- Result record of urlparse restricted to the fields the source uses. -/
structure ParseResult where
  scheme : List Char
  netloc : List Char
  path : List Char
  params : List Char
  query : List Char
  fragment : List Char
deriving DecidableEq, Repr

/-- Model of urllib.parse.urlparse: urlsplit, then parameter separation
when the scheme uses parameters and the path has a semicolon. -/
def urlparseCore (l : List Char) : Option ParseResult :=
  match urlsplitCore l with
  | none => none
  | some r =>
      if r.scheme ∈ usesParams ∧ ';' ∈ r.path then
        let (p, ps) := splitParams r.path
        some ⟨r.scheme, r.netloc, p, ps, r.query, r.fragment⟩
      else
        some ⟨r.scheme, r.netloc, r.path, [], r.query, r.fragment⟩

/-- String-level urlparse as invoked by the source. -/
def urlparse (s : String) : Option ParseResult :=
  urlparseCore s.data

/-- Schemes that use a network location (uses_netloc in CPython),
consulted by urlunsplit when the netloc component is empty. -/
def usesNetloc : List (List Char) :=
  [[], ['f', 't', 'p'], ['h', 't', 't', 'p'],
   ['g', 'o', 'p', 'h', 'e', 'r'], ['n', 'n', 't', 'p'],
   ['t', 'e', 'l', 'n', 'e', 't'], ['i', 'm', 'a', 'p'],
   ['w', 'a', 'i', 's'], ['f', 'i', 'l', 'e'], ['m', 'm', 's'],
   ['h', 't', 't', 'p', 's'], ['s', 'h', 't', 't', 'p'],
   ['s', 'n', 'e', 'w', 's'],
   ['p', 'r', 'o', 's', 'p', 'e', 'r', 'o'],
   ['r', 't', 's', 'p'], ['r', 't', 's', 'p', 's'],
   ['r', 't', 's', 'p', 'u'], ['r', 's', 'y', 'n', 'c'],
   ['s', 'v', 'n'], ['s', 'v', 'n', '+', 's', 's', 'h'],
   ['s', 'f', 't', 'p'], ['n', 'f', 's'], ['g', 'i', 't'],
   ['g', 'i', 't', '+', 's', 's', 'h'], ['w', 's'], ['w', 's', 's']]

/-- Model of urlunsplit as reached from the normalize_url call site: the
components are (scheme, netloc, path, empty, empty), so the params, query
and fragment branches of urlunparse and urlunsplit never fire. -/
def urlunsplitSNP (scheme netloc path : List Char) : List Char :=
  let url :=
    if netloc ≠ [] ∨ (scheme ≠ [] ∧ scheme ∈ usesNetloc ∧ path.take 2 ≠ ['/', '/']) then
      let url1 := if path ≠ [] ∧ path.headD ' ' ≠ '/' then '/' :: path else path
      '/' :: '/' :: (netloc ++ url1)
    else path
  if scheme ≠ [] then scheme ++ ':' :: url else url

/-- Model of normalize_url from src/utils/deep_research.py: parse the
string; when parsing raises, or the scheme or the netloc is empty, return
the input unchanged; otherwise rebuild from scheme, netloc and path only
(dropping params, query and fragment) and strip exactly one trailing
slash unless the parsed path is the root slash. -/
def normalize_url (s : String) : String :=
  match urlparse s with
  | none => s
  | some p =>
      if p.scheme = [] ∨ p.netloc = [] then s
      else
        let n := urlunsplitSNP p.scheme p.netloc p.path
        let n :=
          if n.getLast? = some '/' ∧ p.path ≠ ['/'] then n.dropLast else n
        ⟨n⟩

/-!
Part 2 embeds retry_for_rate_limit_per_minute.  The wrapped call is
modelled by a function from the attempt index (0-based) to the outcome of
that attempt: a returned value, a ResourceExhausted failure, or any other
failure.  The random jitter multiplies the computed wait by a factor in
[0.9, 1.1] just before sleeping; the recorded schedule below is the
unjittered wait, which is what the specification speaks about.  Raised
exceptions are modelled as error results. -/

/-- Outcome of one invocation of the wrapped function: a value, a
ResourceExhausted failure, or another failure. -/
inductive AttemptOutcome where
  | success (v : String)
  | quota
  | failure (e : String)
deriving DecidableEq, Repr

/-- Result of the retry wrapper: the value, a ResourceExhausted raised
after the retry budget, or another exception propagated unchanged. -/
inductive RetryResult where
  | ok (v : String)
  | quotaExhausted
  | error (e : String)
deriving DecidableEq, Repr

/-- Clamp step of the wait computation: first min with the target wait,
then max with 0, written with explicit conditionals (the Python min and
max of two numbers). -/
def waitClamp (tw w : ℚ) : ℚ :=
  if (if w ≤ tw then w else tw) < 0 then 0 else (if w ≤ tw then w else tw)

/-- Unjittered wait computed by the source at a given value of the
retries counter (counted after the increment): target_wait_time when
max_retries is at most 1, otherwise the linear ramp, then clamped from
above by target_wait_time and from below by 0, in that order. -/
def waitFormula (maxRetries : ℕ) (initialWait targetWait : ℚ) (retries : ℕ) : ℚ :=
  waitClamp targetWait
    (if maxRetries ≤ 1 then targetWait
     else
       initialWait +
         (targetWait - initialWait) * ((retries : ℚ) - 1) / ((maxRetries : ℚ) - 1))

/-- Trace of one run of the retry wrapper: the result, the unjittered
waits actually performed (in order), and the number of attempts made. -/
structure RetryTrace where
  result : RetryResult
  waits : List ℚ
  attempts : ℕ
deriving DecidableEq, Repr

/-- One unfolding of the retry loop.  The fuel argument equals
max_retries minus the current retries counter, which bounds the number of
remaining loop iterations; fuel 0 means the while condition fails and the
final ResourceExhausted is raised. -/
def retryGo (f : ℕ → AttemptOutcome) (maxRetries : ℕ) (iw tw : ℚ) :
    ℕ → ℕ → RetryTrace
  | 0, _ => ⟨.quotaExhausted, [], 0⟩
  | fuel + 1, retries =>
    match f retries with
    | .success v => ⟨.ok v, [], 1⟩
    | .failure e => ⟨.error e, [], 1⟩
    | .quota =>
        if retries + 1 ≥ maxRetries then ⟨.quotaExhausted, [], 1⟩
        else
          let w := waitFormula maxRetries iw tw (retries + 1)
          let t := retryGo f maxRetries iw tw fuel (retries + 1)
          ⟨t.result, w :: t.waits, t.attempts + 1⟩

/-- Model of retry_for_rate_limit_per_minute from the source: invoke the
function; return its value on success; on ResourceExhausted increment the
retries counter, re-raise once the counter reaches max_retries, otherwise
wait per the linear schedule and loop; propagate any other exception
immediately. -/
def retry_for_rate_limit_per_minute (f : ℕ → AttemptOutcome) (maxRetries : ℕ)
    (iw tw : ℚ) : RetryTrace :=
  retryGo f maxRetries iw tw maxRetries 0

/-!
Part 3 embeds the iteration-control loop of deep_research.  External
collaborators (the language model, the browsing agents) are modelled by an
oracle giving the outcome of each call; the loop driver itself is
translated from the source.  Observable actions (prompt construction,
context creation and closing, agent dispatch, the terminal report call and
the browser close) are recorded in an event trace.  Python exceptions that
escape to the outer try of deep_research are modelled as an error exit of
the loop, after which the source returns an empty report and no path. -/

/-- Outcome of one planner call (llm.invoke through the retry wrapper,
then code-fence stripping, JSON repair and parsing).  raised: the call
raised (quota budget exhausted or another error).  retNone: the call
returned None.  parseFail: json.loads raised JSONDecodeError.
badShape: the JSON parsed but indexing plan or queries raised (for
example a KeyError), which escapes to the outer handler.  ok: a parsed
object with a queries list. -/
inductive PlannerOutcome where
  | raised
  | retNone
  | parseFail
  | badShape
  | ok (queries : List String)
deriving DecidableEq, Repr

/-- One recorded fact as parsed from recorder output: the url field
(none models a missing url key) and the rest of the entry. -/
structure RecordedFact where
  url : Option String
  content : String
deriving DecidableEq, Repr

/-- Outcome of one recorder call. -/
inductive RecorderOutcome where
  | raised
  | retNone
  | parseFail
  | ok (facts : List RecordedFact)
deriving DecidableEq, Repr

/-- Outcome of the final report call. -/
inductive ReportOutcome where
  | raised
  | retNone
  | ok (content : String)
deriving DecidableEq, Repr

/-- Oracle for all external calls of one run.  planner and recorder are
indexed by the iteration number (1-based); agent is indexed by iteration
and position in the filtered batch, yielding none when the agent run
returned None and some r when it returned an object whose final_result
accessor gives r (itself possibly None). -/
structure Oracle where
  planner : ℕ → PlannerOutcome
  agent : ℕ → ℕ → Option (Option String)
  recorder : ℕ → RecorderOutcome
  report : ReportOutcome

/-- Planner prompt, as built each iteration from the iteration counter,
the task variable, the query history and the fact ledger. -/
structure QueryPrompt where
  iter : ℕ
  maxIter : ℕ
  userInstruction : String
  prevQueries : List String
  prevResults : List RecordedFact
deriving DecidableEq, Repr

/-- Recorder prompt, as built each iteration from the task variable, the
fact ledger and the query_result variable. -/
structure RecordPrompt where
  userInstruction : String
  prevRecorded : List RecordedFact
  currentResults : Option String
deriving DecidableEq, Repr

/-- Report prompt, as built once from the task variable and the ledger. -/
structure ReportPrompt where
  userInstruction : String
  searchInfos : List RecordedFact
deriving DecidableEq, Repr

/-- Observable events of one run, in order of occurrence. -/
inductive Event where
  | plannerInvoked (p : QueryPrompt)
  | contextCreated (iter idx : ℕ)
  | agentRun (iter idx : ℕ) (query : String)
  | contextClosed (iter idx : ℕ)
  | recorderInvoked (iter : ℕ) (p : RecordPrompt)
  | synthInvoked (p : ReportPrompt)
  | browserClosed
deriving DecidableEq, Repr

/-- Mutable state of the loop driver.  taskVar models the Python variable
named task, which the filtering loop rebinds to each candidate query;
lastQR models the variable query_result, none standing for a still
unbound name. -/
structure LoopState where
  iter : ℕ
  taskVar : String
  historyQuery : List String
  historyInfos : List RecordedFact
  visited : List String
  lastQR : Option (Option String)
  events : List Event
deriving Repr

/-- Result of one loop-body execution: continue to the next iteration,
leave the loop through a break, or abort through an exception reaching
the outer handler. -/
inductive StepOut where
  | next (s : LoopState)
  | halt (s : LoopState)
  | err (s : LoopState)
deriving Repr

/-- Duplicate filtering of the candidate queries, translated from the
filtering loop of the source: a candidate that parses as a URL with a
scheme and a netloc is skipped when its normalized form is already in the
visited set and otherwise reserves its normalized form in the visited set
and is kept; any other candidate (including one whose parse raises) is
kept without touching the visited set.  Returns the kept candidates and
the updated visited set. -/
def filterQueryTasks (visited : List String) : List String → List String × List String
  | [] => ([], visited)
  | t :: ts =>
    match urlparse t with
    | some p =>
        if p.scheme ≠ [] ∧ p.netloc ≠ [] then
          if normalize_url t ∈ visited then filterQueryTasks visited ts
          else
            let r := filterQueryTasks (normalize_url t :: visited) ts
            (t :: r.1, r.2)
        else
          let r := filterQueryTasks visited ts
          (t :: r.1, r.2)
    | none =>
        let r := filterQueryTasks visited ts
        (t :: r.1, r.2)

/-- URL-shaped test used by the filtering loop: urlparse succeeds and
both the scheme and the netloc are nonempty. -/
def isUrlQuery (q : String) : Bool :=
  match urlparse q with
  | some p => !p.scheme.isEmpty && !p.netloc.isEmpty
  | none => false

/-- Record-step update of the visited set: every fact with a url field
other than the unknown sentinel has its normalized url added. -/
def addFactLinks (visited : List String) (facts : List RecordedFact) : List String :=
  facts.foldl
    (fun v f =>
      match f.url with
      | some u => if u ≠ "unknown" ∧ normalize_url u ∉ v then normalize_url u :: v else v
      | none => v)
    visited

/-- Value of the query_result variable after the per-query save loop:
the final_result of the last batch entry whose agent run returned an
object, carrying the previous value when every entry is None. -/
def batchLastResult (o : Oracle) (i : ℕ) (n : ℕ)
    (init : Option (Option String)) : Option (Option String) :=
  ((List.range n).map (o.agent i)).foldl
    (fun acc r => match r with | none => acc | some fr => some fr) init

/-- Events for the per-candidate context creations of one iteration
(one context per candidate query, created before filtering). -/
def createsBlock (i n : ℕ) : List Event :=
  (List.range n).map (fun j => Event.contextCreated i j)

/-- Events for the batched agent dispatch of one iteration (one agent
per surviving query, slot j bound to query j). -/
def runsBlock (i : ℕ) (qs : List String) : List Event :=
  qs.enum.map (fun (jq : Nat × String) => Event.agentRun i jq.1 jq.2)

/-- Events for the context closes after the batch of one iteration. -/
def closesBlock (i n : ℕ) : List Event :=
  (List.range n).map (fun j => Event.contextClosed i j)

/-- One execution of the loop body of deep_research, translated from the
source in order: increment the iteration counter, build and log the
planner prompt, consult the planner; on a raised call abort, on a None
return or a JSON decode failure break, on a malformed object abort; on an
empty queries list break; extend the query history; create one browsing
context per candidate query; filter the candidates against the visited
set (rebinding the task variable to each candidate in turn); break when
no candidate survives (without closing the contexts); dispatch one agent
per surviving candidate, close every context of the iteration, update
query_result from the batch (aborting when it is still unbound), build
and log the recorder prompt, consult the recorder; on a raised call
abort, on a None return break, on a decode failure record nothing; add
the normalized urls of the new facts to the visited set and append the
facts to the ledger. -/
def stepOnce (o : Oracle) (maxIter : ℕ) (s : LoopState) : StepOut :=
  let i := s.iter + 1
  let qp : QueryPrompt := ⟨i, maxIter, s.taskVar, s.historyQuery, s.historyInfos⟩
  let s := { s with iter := i, events := s.events ++ [Event.plannerInvoked qp] }
  match o.planner i with
  | .raised => .err s
  | .retNone => .halt s
  | .parseFail => .halt s
  | .badShape => .err s
  | .ok qs =>
    if qs = [] then .halt s
    else
      let s := { s with historyQuery := s.historyQuery ++ qs }
      let s := { s with events := s.events ++ createsBlock i qs.length }
      let fv := filterQueryTasks s.visited qs
      let s := { s with visited := fv.2, taskVar := qs.getLastD s.taskVar }
      if fv.1 = [] then .halt s
      else
        let s := { s with events := s.events ++ runsBlock i fv.1 }
        let s := { s with events := s.events ++ closesBlock i qs.length }
        let qr := batchLastResult o i fv.1.length s.lastQR
        let s := { s with lastQR := qr }
        match qr with
        | none => .err s
        | some r =>
          let rp : RecordPrompt := ⟨s.taskVar, s.historyInfos, r⟩
          let s := { s with events := s.events ++ [Event.recorderInvoked i rp] }
          match o.recorder i with
          | .raised => .err s
          | .retNone => .halt s
          | .parseFail => .next s
          | .ok facts =>
              .next { s with
                visited := addFactLinks s.visited facts,
                historyInfos := s.historyInfos ++ facts }

/-- State carried by a step outcome. -/
def stepState : StepOut → LoopState
  | .next s => s
  | .halt s => s
  | .err s => s

/-- Exit mode of the loop: the iteration cap was reached, a break fired,
or an exception escaped to the outer handler. -/
inductive ExitKind where
  | cap
  | brk
  | err
deriving DecidableEq, Repr

/-- The while loop of deep_research.  The fuel argument equals the
number of remaining iterations allowed by the cap; fuel 0 means the
while condition search_iteration < max_search_iterations fails. -/
def loopRun (o : Oracle) (maxIter : ℕ) : ℕ → LoopState → LoopState × ExitKind
  | 0, s => (s, .cap)
  | fuel + 1, s =>
    match stepOnce o maxIter s with
    | .next s2 => loopRun o maxIter fuel s2
    | .halt s2 => (s2, .brk)
    | .err s2 => (s2, .err)

/-- Initial loop state for a given research task. -/
def initState (task : String) : LoopState :=
  ⟨0, task, [], [], [], none, []⟩

/-- Model of deep_research: run the loop from the initial state; on an
exception exit return an empty report and no path; otherwise build the
report prompt from the task variable and the ledger, invoke the report
call once, and return its content and the report path (or an empty
report and no path when that call returns None or raises).  The finally
block closing the browser is the last event on every path; the model is
a total function, so no failure mode escapes to the caller. -/
def deepResearch (task : String) (maxIter : ℕ) (o : Oracle) :
    (String × Option String) × List Event :=
  let r := loopRun o maxIter maxIter (initState task)
  let s := r.1
  match r.2 with
  | .err => (("", none), s.events ++ [Event.browserClosed])
  | _ =>
    let rp : ReportPrompt := ⟨s.taskVar, s.historyInfos⟩
    let evs := s.events ++ [Event.synthInvoked rp]
    match o.report with
    | .raised => (("", none), evs ++ [Event.browserClosed])
    | .retNone => (("", none), evs ++ [Event.browserClosed])
    | .ok c => ((c, some "final_report.md"), evs ++ [Event.browserClosed])

/-- Count of report calls in a trace. -/
def synthCount (evs : List Event) : ℕ :=
  evs.countP (fun e => match e with | .synthInvoked _ => true | _ => false)

/-- Count of recorder calls in a trace. -/
def recorderCount (evs : List Event) : ℕ :=
  evs.countP (fun e => match e with | .recorderInvoked _ _ => true | _ => false)

/-- Count of planner calls in a trace. -/
def plannerCount (evs : List Event) : ℕ :=
  evs.countP (fun e => match e with | .plannerInvoked _ => true | _ => false)

/-- Count of agent dispatches for a given iteration in a trace. -/
def agentRunCount (i : ℕ) (evs : List Event) : ℕ :=
  evs.countP (fun e => match e with | .agentRun j _ _ => j == i | _ => false)

/-! Trace-ordering machinery for the loop events. -/

/-- Iteration-phase tag of an event: 5i for the planner call of iteration
i, then context creations, agent dispatches, context closes and the
recorder call of that iteration, in source order; the terminal events get
none, which sorts after every loop event. -/
def evTag : Event → Option ℕ
  | .plannerInvoked p => some (5 * p.iter)
  | .contextCreated i _ => some (5 * i + 1)
  | .agentRun i _ _ => some (5 * i + 2)
  | .contextClosed i _ => some (5 * i + 3)
  | .recorderInvoked i _ => some (5 * i + 4)
  | .synthInvoked _ => none
  | .browserClosed => none

/-- Chronological order on events by tag; none sorts last. -/
def tagLe (a b : Event) : Prop :=
  match evTag a, evTag b with
  | some x, some y => x ≤ y
  | _, none => True
  | none, some _ => False

/-- Dispatch predicate for a given iteration and normalized URL: an agent
dispatch of that iteration whose query is URL-shaped and normalizes to the
given string. -/
def runPred (i : ℕ) (n : String) : Event → Bool
  | .agentRun i2 _ q => i2 == i && (isUrlQuery q && (normalize_url q == n))
  | .plannerInvoked _ => false
  | .contextCreated _ _ => false
  | .contextClosed _ _ => false
  | .recorderInvoked _ _ => false
  | .synthInvoked _ => false
  | .browserClosed => false

/-- Properties of the event block emitted by one loop iteration: tags lie
in the phase range of the iteration, the block is chronologically sorted,
each context event occurs at most once, closes pair with creates, a
dispatching block closes every context it created, and a block without
dispatches closes no context. -/
structure BlockOk (i : ℕ) (bl : List Event) : Prop where
  tags : ∀ e ∈ bl, ∃ t, evTag e = some t ∧ 5 * i ≤ t ∧ t ≤ 5 * i + 4
  sorted : bl.Pairwise tagLe
  createdOnce : ∀ j, bl.countP (fun e => e == Event.contextCreated i j) ≤ 1
  closedOnce : ∀ j, bl.countP (fun e => e == Event.contextClosed i j) ≤ 1
  closedSub : ∀ j, Event.contextClosed i j ∈ bl → Event.contextCreated i j ∈ bl
  closedAll : (∃ j q, Event.agentRun i j q ∈ bl) →
    ∀ j, Event.contextCreated i j ∈ bl → Event.contextClosed i j ∈ bl
  noRunNoClose : (∀ j q, Event.agentRun i j q ∉ bl) →
    ∀ j, Event.contextClosed i j ∉ bl

/-- Optional recorder suffix of a dispatching block. -/
def recBlock (i : ℕ) : Option RecordPrompt → List Event
  | some rp => [Event.recorderInvoked i rp]
  | none => []

/-- Run-level trace invariant: every event is a loop event with tag
bounded by the current iteration, the trace is chronologically sorted,
each context event occurs at most once, closes pair with creates,
iterations that dispatched closed every context they created, iterations
that did not dispatch closed none, and dispatch matches for any
normalized URL are unique per iteration. -/
structure TraceInv (s : LoopState) : Prop where
  tags : ∀ e ∈ s.events, ∃ t, evTag e = some t ∧ t ≤ 5 * s.iter + 4
  sorted : s.events.Pairwise tagLe
  createdOnce : ∀ i j, s.events.countP (fun e => e == Event.contextCreated i j) ≤ 1
  closedOnce : ∀ i j, s.events.countP (fun e => e == Event.contextClosed i j) ≤ 1
  closedSub : ∀ i j, Event.contextClosed i j ∈ s.events →
    Event.contextCreated i j ∈ s.events
  closedAll : ∀ i, (∃ j q, Event.agentRun i j q ∈ s.events) →
    ∀ j, Event.contextCreated i j ∈ s.events → Event.contextClosed i j ∈ s.events
  noRunNoClose : ∀ i, (∀ j q, Event.agentRun i j q ∉ s.events) →
    ∀ j, Event.contextClosed i j ∉ s.events
  runsOnce : ∀ i n, s.events.countP (runPred i n) ≤ 1

/-- Oracle for the C2 counterexample: the first planner response parses
as JSON but indexing its fields raises, an internal error. -/
def oracleC2 : Oracle :=
  ⟨fun _ => .badShape, fun _ _ => none, fun _ => .raised, .ok "rep"⟩

/-- Oracle for the C2 witness: the first planner call returns None, a
graceful break. -/
def oracleC2W : Oracle :=
  ⟨fun _ => .retNone, fun _ _ => none, fun _ => .raised, .raised⟩

/-- Oracle for the C6 counterexample: the planner proposes the same URL
twice in a row, so iteration 2 stops on the all-duplicates break after
creating its context. -/
def oracleC6 : Oracle :=
  ⟨fun i => if i ≤ 2 then .ok ["http://a/x"] else .ok [],
   fun _ _ => some (some "r"), fun _ => .ok [], .ok "rep"⟩

/-- Oracle for the C6 witness: one dispatching iteration, then stop. -/
def oracleC6W : Oracle :=
  ⟨fun i => if i = 1 then .ok ["w1"] else .ok [],
   fun _ _ => some (some "r"), fun _ => .ok [], .ok "rep"⟩

/-- Oracle for the C9 failing input: the task is T but the planner
proposes the query q1, which then leaks into later prompts through the
rebound task variable. -/
def oracleC9 : Oracle :=
  ⟨fun i => if i = 1 then .ok ["q1"] else .ok [],
   fun _ _ => some (some "r1"), fun _ => .ok [], .ok "rep"⟩

/-- Oracle for the C10 witness: the second proposed query is a duplicate
URL, excluded from dispatch but still recorded in the query history. -/
def oracleC10 : Oracle :=
  ⟨fun i => if i = 1 then .ok ["http://a/x", "http://a/x?y"] else .ok [],
   fun _ _ => some (some "r"), fun _ => .ok [], .ok "rep"⟩

/-- Oracle for the C5 claim: one query in iteration 1, empty list in
iteration 2. -/
def oracleC5 : Oracle :=
  ⟨fun i => if i = 1 then .ok ["q1"] else .ok [],
   fun _ _ => some (some "r1"), fun _ => .ok [], .ok "rep"⟩

/-- Oracle for the C8 claim: two queries in iteration 1 with distinct
transcripts, then stop. -/
def oracleC8 : Oracle :=
  ⟨fun i => if i = 1 then .ok ["q1", "q2"] else .ok [],
   fun _ j => if j = 0 then some (some "r1") else some (some "r2"),
   fun _ => .ok [], .ok "rep"⟩

/-- The path retained by normalize_url after the single trailing-slash
strip: the parsed path, with its last character removed exactly when the
rebuilt URL ends in a slash and the path is not the root slash. -/
def stripPath (p : ParseResult) : List Char :=
  if (urlunsplitSNP p.scheme p.netloc p.path).getLast? = some '/' ∧ p.path ≠ ['/'] then
    p.path.dropLast
  else p.path

/-- The clamp keeps its argument when it already lies in [0, tw]. -/
theorem waitClamp_of_mem (tw w : ℚ) (h0 : 0 ≤ w) (h1 : w ≤ tw) :
    waitClamp tw w = w := by
  unfold waitClamp
  rw [if_pos h1, if_neg (not_lt.mpr h0)]

/-- The clamp lands in [0, tw] whenever 0 ≤ tw. -/
theorem waitClamp_mem (tw w : ℚ) (htw : 0 ≤ tw) :
    0 ≤ waitClamp tw w ∧ waitClamp tw w ≤ tw := by
  constructor <;> (unfold waitClamp; split_ifs <;> linarith)

/-- The clamp is monotone in its argument. -/
theorem waitClamp_mono (tw w1 w2 : ℚ) (h : w1 ≤ w2) :
    waitClamp tw w1 ≤ waitClamp tw w2 := by
  unfold waitClamp
  split_ifs <;> linarith

/-! Helper lemmas about the retry loop. -/

/-- Run of the retry loop in which every attempt up to the budget fails
with ResourceExhausted: the call ends in the re-raised quota error after
exactly fuel attempts, having waited the linear schedule at the retries
counts strictly between the entry count and the budget. -/
theorem retryGo_allQuota (f : ℕ → AttemptOutcome) (maxR : ℕ) (iw tw : ℚ) :
    ∀ fuel retries, (∀ j, retries ≤ j → j < maxR → f j = .quota) →
      retries + fuel = maxR →
      retryGo f maxR iw tw fuel retries =
        ⟨.quotaExhausted,
          (List.range' (retries + 1) (fuel - 1)).map (waitFormula maxR iw tw), fuel⟩ := by
  intro fuel
  induction fuel with
  | zero => intro retries _ _; simp [retryGo]
  | succ n ih =>
    intro retries hq hsum
    have hfr : f retries = .quota := hq retries le_rfl (by omega)
    simp only [retryGo, hfr]
    by_cases hge : retries + 1 ≥ maxR
    · have hn : n = 0 := by omega
      subst hn
      simp [hge]
    · have hn1 : 1 ≤ n := by omega
      obtain ⟨m, rfl⟩ : ∃ m, n = m + 1 := ⟨n - 1, by omega⟩
      rw [if_neg hge, ih (retries + 1) (fun j hj1 hj2 => hq j (by omega) hj2) (by omega)]
      simp [List.range']

/-- Run of the retry loop in which the attempts before index k fail with
ResourceExhausted and attempt k fails with another error: the error
propagates at once, after k - retries + 1 attempts, with no wait for the
failing attempt itself. -/
theorem retryGo_firstOther (f : ℕ → AttemptOutcome) (maxR : ℕ) (iw tw : ℚ)
    (e : String) :
    ∀ fuel retries k, retries + fuel = maxR → retries ≤ k → k < maxR →
      (∀ j, retries ≤ j → j < k → f j = .quota) → f k = .failure e →
      retryGo f maxR iw tw fuel retries =
        ⟨.error e,
          (List.range' (retries + 1) (k - retries)).map (waitFormula maxR iw tw),
          k - retries + 1⟩ := by
  intro fuel
  induction fuel with
  | zero => intro retries k hsum hrk hkm _ _; omega
  | succ n ih =>
    intro retries k hsum hrk hkm hq hk
    by_cases hek : retries = k
    · subst hek
      simp [retryGo, hk]
    · have hfr : f retries = .quota := hq retries le_rfl (by omega)
      simp only [retryGo, hfr]
      have hge : ¬(retries + 1 ≥ maxR) := by omega
      rw [if_neg hge,
        ih (retries + 1) k (by omega) (by omega) hkm
          (fun j hj1 hj2 => hq j (by omega) hj2) hk]
      have h1 : k - retries = (k - (retries + 1)) + 1 := by omega
      have h2 : k - (retries + 1) + 1 + 1 = k - retries + 1 := by omega
      rw [h1]
      simp [List.range', h2]

/-- Attempts beyond the first are made only after ResourceExhausted
failures: whenever the trace shows an attempt after index k, attempt k
failed with the quota error. -/
theorem retryGo_attempts_quota (f : ℕ → AttemptOutcome) (maxR : ℕ) (iw tw : ℚ) :
    ∀ fuel retries k, retries ≤ k →
      k - retries + 1 < (retryGo f maxR iw tw fuel retries).attempts →
      f k = .quota := by
  intro fuel
  induction fuel with
  | zero => intro retries k _ h; simp [retryGo] at h
  | succ n ih =>
    intro retries k hrk h
    rcases hfr : f retries with v | _ | e
    · simp [retryGo, hfr] at h
    · by_cases hek : retries = k
      · subst hek; exact hfr
      · simp only [retryGo, hfr] at h
        by_cases hge : retries + 1 ≥ maxR
        · rw [if_pos hge] at h; simp at h
        · rw [if_neg hge] at h
          simp only at h
          exact ih (retries + 1) k (by omega) (by omega)
    · simp [retryGo, hfr] at h

/-- C7: the rate-limited invoker retries the wrapped operation only on
quota-exhausted (ResourceExhausted) failures; after maxRetries
consecutive quota failures the call fails with the quota error; any other
error raised by the operation propagates to the caller immediately,
without any further attempt and with no wait accompanying it (the waits
performed are exactly one per preceding quota failure). -/
theorem C7_retry_error_taxonomy (f : ℕ → AttemptOutcome) (maxRetries : ℕ)
    (iw tw : ℚ) :
    ((∀ j, j < maxRetries → f j = .quota) →
      (retry_for_rate_limit_per_minute f maxRetries iw tw).result = .quotaExhausted ∧
      (retry_for_rate_limit_per_minute f maxRetries iw tw).attempts = maxRetries) ∧
    (∀ k e, k < maxRetries → (∀ j, j < k → f j = .quota) → f k = .failure e →
      (retry_for_rate_limit_per_minute f maxRetries iw tw).result = .error e ∧
      (retry_for_rate_limit_per_minute f maxRetries iw tw).attempts = k + 1 ∧
      (retry_for_rate_limit_per_minute f maxRetries iw tw).waits.length = k) ∧
    (∀ k, k + 1 < (retry_for_rate_limit_per_minute f maxRetries iw tw).attempts →
      f k = .quota) := by
  refine ⟨?_, ?_, ?_⟩
  · intro hq
    rw [retry_for_rate_limit_per_minute,
      retryGo_allQuota f maxRetries iw tw maxRetries 0 (fun j _ hj => hq j hj)
        (by omega)]
    exact ⟨rfl, rfl⟩
  · intro k e hk hq hke
    rw [retry_for_rate_limit_per_minute,
      retryGo_firstOther f maxRetries iw tw e maxRetries 0 k (by omega) (by omega)
        hk (fun j _ hj => hq j hj) hke]
    refine ⟨rfl, rfl, ?_⟩
    simp
  · intro k h
    exact retryGo_attempts_quota f maxRetries iw tw maxRetries 0 k (by omega)
      (by simpa using h)

/-- Witness for C7 at a concrete schedule: two quota failures followed by
a distinct failure at attempt index 2 with budget 5. -/
theorem C7_retry_error_taxonomy_witness :
    (∀ j, j < 2 →
      (fun k => if k = 2 then AttemptOutcome.failure "boom" else .quota) j = .quota) ∧
    ((retry_for_rate_limit_per_minute
        (fun k => if k = 2 then AttemptOutcome.failure "boom" else .quota)
        5 1 59).result = .error "boom" ∧
      (retry_for_rate_limit_per_minute
        (fun k => if k = 2 then AttemptOutcome.failure "boom" else .quota)
        5 1 59).attempts = 3 ∧
      (retry_for_rate_limit_per_minute
        (fun k => if k = 2 then AttemptOutcome.failure "boom" else .quota)
        5 1 59).waits.length = 2) := by
  refine ⟨by decide, ?_⟩
  exact (C7_retry_error_taxonomy
    (fun k => if k = 2 then AttemptOutcome.failure "boom" else .quota) 5 1 59).2.1
    2 "boom" (by decide) (by decide) (by decide)

/-- Concrete evaluation of the default all-quota schedule. -/
theorem retryDefaultWaits :
    (retry_for_rate_limit_per_minute (fun _ => AttemptOutcome.quota) 5 1 59).waits =
      [1, 31 / 2, 30, 89 / 2] := by
  rw [retry_for_rate_limit_per_minute,
    retryGo_allQuota (fun _ => AttemptOutcome.quota) 5 1 59 5 0 (fun _ _ _ => rfl) rfl]
  norm_num [List.range', waitFormula, waitClamp]

/-- C3 counterexample: with maxRetries 5, initialWait 1, targetWait 59
and every attempt failing on quota, the unjittered waits actually
performed are 1, 15.5, 30 and 44.5 seconds; no performed wait equals 59
seconds (the failure of attempt 5 re-raises without waiting), and with
maxRetries 1 no wait is performed at all, contradicting the claimed 59
second wait at attempt 5 and the claimed single targetWait wait for
maxRetries at most 1. -/
theorem C3_retry_wait_schedule_counterexample :
    (retry_for_rate_limit_per_minute (fun _ => AttemptOutcome.quota) 5 1 59).waits =
      [1, 31 / 2, 30, 89 / 2] ∧
    (59 : ℚ) ∉ (retry_for_rate_limit_per_minute (fun _ => AttemptOutcome.quota) 5 1 59).waits ∧
    (retry_for_rate_limit_per_minute (fun _ => AttemptOutcome.quota) 1 1 59).waits = [] := by
  refine ⟨retryDefaultWaits, ?_, ?_⟩
  · rw [retryDefaultWaits]
    norm_num
  · rcases hf0 : (fun (_ : ℕ) => AttemptOutcome.quota) 0 with v | _ | e <;>
      simp [retry_for_rate_limit_per_minute, retryGo, hf0]

/-- C3 amended: the unjittered wait after the k-th consecutive quota
failure (performed only for k strictly below maxRetries) follows the
clamped linear formula; for parameters 2 ≤ maxRetries and
0 ≤ initialWait ≤ targetWait the formula starts at initialWait at k = 1,
is monotone in k and attains targetWait only at k = maxRetries, a count
at which the code re-raises instead of waiting, so for an all-quota run
the performed schedule is the formula on 1..maxRetries-1 (for the
defaults: 1, 15.5, 30, 44.5 — non-decreasing, never 59); the formula is
clamped to [0, targetWait]; and when maxRetries ≤ 1 no wait is performed
at all, the targetWait branch being unreachable. -/
theorem C3_retry_wait_schedule_amended (maxRetries : ℕ) (iw tw : ℚ)
    (f : ℕ → AttemptOutcome) :
    ((∀ j, j < maxRetries → f j = .quota) →
      (retry_for_rate_limit_per_minute f maxRetries iw tw).waits =
        (List.range' 1 (maxRetries - 1)).map (waitFormula maxRetries iw tw)) ∧
    (2 ≤ maxRetries → 0 ≤ iw → iw ≤ tw →
      waitFormula maxRetries iw tw 1 = iw ∧
      waitFormula maxRetries iw tw maxRetries = tw ∧
      (∀ r1 r2 : ℕ, r1 ≤ r2 →
        waitFormula maxRetries iw tw r1 ≤ waitFormula maxRetries iw tw r2)) ∧
    (0 ≤ tw → ∀ r, 0 ≤ waitFormula maxRetries iw tw r ∧
      waitFormula maxRetries iw tw r ≤ tw) ∧
    (maxRetries ≤ 1 → (retry_for_rate_limit_per_minute f maxRetries iw tw).waits = []) ∧
    ((retry_for_rate_limit_per_minute (fun _ => AttemptOutcome.quota) 5 1 59).waits =
        [1, 31 / 2, 30, 89 / 2] ∧
      List.Chain' (· ≤ ·)
        (retry_for_rate_limit_per_minute (fun _ => AttemptOutcome.quota) 5 1 59).waits) := by
  refine ⟨?_, ?_, ?_, ?_, retryDefaultWaits, ?_⟩
  rotate_right
  · rw [retryDefaultWaits]
    norm_num
  · intro hq
    rw [retry_for_rate_limit_per_minute,
      retryGo_allQuota f maxRetries iw tw maxRetries 0 (fun j _ hj => hq j hj)
        (by omega)]
  · intro h2 h0 hle
    have hnle : ¬(maxRetries ≤ 1) := by omega
    have hcast : (2 : ℚ) ≤ (maxRetries : ℚ) := by exact_mod_cast h2
    have hd : (0 : ℚ) < (maxRetries : ℚ) - 1 := by linarith
    refine ⟨?_, ?_, ?_⟩
    · rw [waitFormula, if_neg hnle]
      have hw : iw + (tw - iw) * (((1 : ℕ) : ℚ) - 1) / ((maxRetries : ℚ) - 1) = iw := by
        norm_num
      rw [hw, waitClamp_of_mem tw iw h0 hle]
    · rw [waitFormula, if_neg hnle]
      have hw : iw + (tw - iw) * ((maxRetries : ℚ) - 1) / ((maxRetries : ℚ) - 1) = tw := by
        rw [mul_div_assoc, div_self (ne_of_gt hd)]
        ring
      rw [hw, waitClamp_of_mem tw tw (by linarith) le_rfl]
    · intro r1 r2 h12
      rw [waitFormula, waitFormula]
      simp only [if_neg hnle]
      have hc12 : ((r1 : ℚ)) ≤ (r2 : ℚ) := by exact_mod_cast h12
      have h1 : (r1 : ℚ) - 1 ≤ (r2 : ℚ) - 1 := by linarith
      have h2m : (tw - iw) * ((r1 : ℚ) - 1) ≤ (tw - iw) * ((r2 : ℚ) - 1) :=
        mul_le_mul_of_nonneg_left h1 (by linarith)
      have h3 : (tw - iw) * ((r1 : ℚ) - 1) / ((maxRetries : ℚ) - 1) ≤
          (tw - iw) * ((r2 : ℚ) - 1) / ((maxRetries : ℚ) - 1) :=
        (div_le_div_iff_of_pos_right hd).mpr h2m
      exact waitClamp_mono tw _ _ (by linarith)
  · intro htw r
    rw [waitFormula]
    exact waitClamp_mem tw _ htw
  · intro h1
    interval_cases maxRetries
    · rfl
    · rcases hf0 : f 0 with v | _ | e <;>
        simp [retry_for_rate_limit_per_minute, retryGo, hf0]

/-- Witness for C3 amended at the default parameters. -/
theorem C3_retry_wait_schedule_amended_witness :
    ((∀ j, j < 5 → (fun _ => AttemptOutcome.quota) j = .quota) ∧
      (retry_for_rate_limit_per_minute (fun _ => AttemptOutcome.quota) 5 1 59).waits =
        (List.range' 1 4).map (waitFormula 5 1 59)) ∧
    ((2 : ℕ) ≤ 5 ∧ (0 : ℚ) ≤ 1 ∧ (1 : ℚ) ≤ 59 ∧
      waitFormula 5 1 59 1 = 1 ∧ waitFormula 5 1 59 5 = 59) := by
  have h := C3_retry_wait_schedule_amended 5 1 59 (fun _ => AttemptOutcome.quota)
  have h2 := h.2.1 (by norm_num) (by norm_num) (by norm_num)
  exact ⟨⟨by decide, h.1 (fun j hj => rfl)⟩,
    by norm_num, by norm_num, by norm_num, h2.1, h2.2.1⟩

/-! Helper lemmas about the duplicate filter. -/

/-- URL-shaped test evaluated on a successful parse. -/
theorem isUrlQuery_parse (q : String) (p : ParseResult) (hp : urlparse q = some p) :
    isUrlQuery q = true ↔ (p.scheme ≠ [] ∧ p.netloc ≠ []) := by
  unfold isUrlQuery
  rw [hp]
  simp [List.isEmpty_iff]

/-- URL-shaped test evaluated on a failed parse. -/
theorem isUrlQuery_none (q : String) (hp : urlparse q = none) :
    isUrlQuery q = false := by
  unfold isUrlQuery
  rw [hp]

/-- The visited set accumulated by the filter only grows. -/
theorem filterQueryTasks_visited_subset (ts : List String) :
    ∀ visited, visited ⊆ (filterQueryTasks visited ts).2 := by
  induction ts with
  | nil => intro visited; simp [filterQueryTasks]
  | cons t ts ih =>
    intro visited
    simp only [filterQueryTasks]
    cases hp : urlparse t with
    | none => exact ih visited
    | some p =>
        dsimp only
        by_cases hsn : p.scheme ≠ [] ∧ p.netloc ≠ []
        · rw [if_pos hsn]
          by_cases hv : normalize_url t ∈ visited
          · rw [if_pos hv]; exact ih visited
          · rw [if_neg hv]
            exact fun x hx => ih (normalize_url t :: visited) (List.mem_cons_of_mem _ hx)
        · rw [if_neg hsn]; exact ih visited

/-- A URL-shaped query whose normalized form is already visited never
survives the filter. -/
theorem filterQueryTasks_excludes (ts : List String) :
    ∀ visited q, isUrlQuery q = true → normalize_url q ∈ visited →
      q ∉ (filterQueryTasks visited ts).1 := by
  induction ts with
  | nil => intro visited q _ _; simp [filterQueryTasks]
  | cons t ts ih =>
    intro visited q hu hv
    simp only [filterQueryTasks]
    cases hp : urlparse t with
    | none =>
        intro hmem
        rcases List.mem_cons.mp hmem with rfl | hmem2
        · rw [isUrlQuery_none q hp] at hu; cases hu
        · exact ih visited q hu hv hmem2
    | some p =>
        dsimp only
        by_cases hsn : p.scheme ≠ [] ∧ p.netloc ≠ []
        · rw [if_pos hsn]
          by_cases hvt : normalize_url t ∈ visited
          · rw [if_pos hvt]; exact ih visited q hu hv
          · rw [if_neg hvt]
            intro hmem
            rcases List.mem_cons.mp hmem with rfl | hmem2
            · exact hvt hv
            · exact ih (normalize_url t :: visited) q hu
                (List.mem_cons_of_mem _ hv) hmem2
        · rw [if_neg hsn]
          intro hmem
          rcases List.mem_cons.mp hmem with rfl | hmem2
          · exact hsn ((isUrlQuery_parse q p hp).mp hu)
          · exact ih visited q hu hv hmem2

/-- Every URL-shaped query accepted by the filter has its normalized form
recorded in the visited set the filter returns (the set the batch
construction then runs under). -/
theorem filterQueryTasks_reserves (ts : List String) :
    ∀ visited q, q ∈ (filterQueryTasks visited ts).1 → isUrlQuery q = true →
      normalize_url q ∈ (filterQueryTasks visited ts).2 := by
  induction ts with
  | nil => intro visited q h _; simp [filterQueryTasks] at h
  | cons t ts ih =>
    intro visited q hmem hu
    simp only [filterQueryTasks] at hmem ⊢
    cases hp : urlparse t with
    | none =>
        rw [hp] at hmem
        rcases List.mem_cons.mp hmem with rfl | hmem2
        · rw [isUrlQuery_none q hp] at hu; cases hu
        · exact ih visited q hmem2 hu
    | some p =>
        dsimp only
        rw [hp] at hmem
        dsimp only at hmem
        by_cases hsn : p.scheme ≠ [] ∧ p.netloc ≠ []
        · rw [if_pos hsn] at hmem ⊢
          by_cases hvt : normalize_url t ∈ visited
          · rw [if_pos hvt] at hmem ⊢; exact ih visited q hmem hu
          · rw [if_neg hvt] at hmem ⊢
            rcases List.mem_cons.mp hmem with rfl | hmem2
            · exact filterQueryTasks_visited_subset ts (normalize_url q :: visited)
                (List.mem_cons_self _ _)
            · exact ih (normalize_url t :: visited) q hmem2 hu
        · rw [if_neg hsn] at hmem ⊢
          rcases List.mem_cons.mp hmem with rfl | hmem2
          · exact absurd ((isUrlQuery_parse q p hp).mp hu) hsn
          · exact ih visited q hmem2 hu

/-- Among the queries the filter lets through, at most one is URL-shaped
with any given normalized form; and none is, when that form was already
visited on entry. -/
theorem filterQueryTasks_count (n : String) (ts : List String) :
    ∀ visited,
      (n ∈ visited →
        (filterQueryTasks visited ts).1.countP
          (fun t => isUrlQuery t && (normalize_url t == n)) = 0) ∧
      (filterQueryTasks visited ts).1.countP
        (fun t => isUrlQuery t && (normalize_url t == n)) ≤ 1 := by
  induction ts with
  | nil => intro visited; simp [filterQueryTasks]
  | cons t ts ih =>
    intro visited
    simp only [filterQueryTasks]
    cases hp : urlparse t with
    | none =>
        have hf : (isUrlQuery t && (normalize_url t == n)) = false := by
          rw [isUrlQuery_none t hp]
          rfl
        constructor
        · intro hv
          rw [List.countP_cons]
          simp only [hf]
          simpa using (ih visited).1 hv
        · rw [List.countP_cons]
          simp only [hf]
          simpa using (ih visited).2
    | some p =>
        dsimp only
        by_cases hsn : p.scheme ≠ [] ∧ p.netloc ≠ []
        · rw [if_pos hsn]
          by_cases hvt : normalize_url t ∈ visited
          · rw [if_pos hvt]; exact ih visited
          · rw [if_neg hvt]
            by_cases hpt : (isUrlQuery t && (normalize_url t == n)) = true
            · have hnt : normalize_url t = n := by
                have h2 := (Bool.and_eq_true _ _).mp hpt
                exact eq_of_beq h2.2
              constructor
              · intro hv
                rw [← hnt] at hv
                exact absurd hv hvt
              · rw [List.countP_cons]
                simp only [hpt, if_true]
                have h0 := (ih (normalize_url t :: visited)).1
                  (by rw [← hnt]; exact List.mem_cons_self _ _)
                omega
            · have hpf : (isUrlQuery t && (normalize_url t == n)) = false :=
                Bool.not_eq_true _ ▸ eq_false_of_ne_true hpt
              constructor
              · intro hv
                rw [List.countP_cons]
                simp only [hpf]
                have h0 := (ih (normalize_url t :: visited)).1
                  (List.mem_cons_of_mem _ hv)
                simpa using h0
              · rw [List.countP_cons]
                simp only [hpf]
                simpa using (ih (normalize_url t :: visited)).2
        · rw [if_neg hsn]
          have hf : (isUrlQuery t && (normalize_url t == n)) = false := by
            have hq : isUrlQuery t = false := by
              rcases hb : isUrlQuery t with _ | _
              · rfl
              · exact absurd ((isUrlQuery_parse t p hp).mp hb) hsn
            rw [hq]
            rfl
          constructor
          · intro hv
            rw [List.countP_cons]
            simp only [hf]
            simpa using (ih visited).1 hv
          · rw [List.countP_cons]
            simp only [hf]
            simpa using (ih visited).2

/-- Pairwise holds for a relation true on all pairs of members. -/
theorem pairwiseOfForall {R : Event → Event → Prop} :
    ∀ l : List Event, (∀ a ∈ l, ∀ b ∈ l, R a b) → l.Pairwise R := by
  intro l
  induction l with
  | nil => intro _; exact List.Pairwise.nil
  | cons x l ih =>
    intro h
    exact List.Pairwise.cons
      (fun b hb => h x (List.mem_cons_self _ _) b (List.mem_cons_of_mem _ hb))
      (ih fun a ha b hb =>
        h a (List.mem_cons_of_mem _ ha) b (List.mem_cons_of_mem _ hb))

/-- Shape of the creation block. -/
theorem createsBlock_shape (i n : ℕ) :
    ∀ e ∈ createsBlock i n, ∃ j, e = Event.contextCreated i j ∧ j < n := by
  intro e he
  rcases List.mem_map.mp he with ⟨j, hj, rfl⟩
  exact ⟨j, rfl, List.mem_range.mp hj⟩

/-- The value component of an enumerated member is a member. -/
theorem snd_mem_of_mem_enumFrom {l : List String} :
    ∀ k (p : Nat × String), p ∈ List.enumFrom k l → p.2 ∈ l := by
  induction l with
  | nil => intro k p h; cases h
  | cons a l ih =>
    intro k p h
    rw [List.enumFrom_cons] at h
    rcases List.mem_cons.mp h with rfl | h2
    · exact List.mem_cons_self _ _
    · exact List.mem_cons_of_mem _ (ih (k + 1) p h2)

/-- Shape of the dispatch block. -/
theorem runsBlock_shape (i : ℕ) (qs : List String) :
    ∀ e ∈ runsBlock i qs, ∃ j q, e = Event.agentRun i j q ∧ q ∈ qs := by
  intro e he
  rcases List.mem_map.mp he with ⟨jq, hjq, rfl⟩
  exact ⟨jq.1, jq.2, rfl, snd_mem_of_mem_enumFrom 0 jq hjq⟩

/-- Shape of the closing block. -/
theorem closesBlock_shape (i n : ℕ) :
    ∀ e ∈ closesBlock i n, ∃ j, e = Event.contextClosed i j ∧ j < n := by
  intro e he
  rcases List.mem_map.mp he with ⟨j, hj, rfl⟩
  exact ⟨j, rfl, List.mem_range.mp hj⟩

/-- Membership in the creation block. -/
theorem mem_createsBlock (i n a b : ℕ) :
    Event.contextCreated a b ∈ createsBlock i n ↔ a = i ∧ b < n := by
  constructor
  · intro h
    rcases createsBlock_shape i n _ h with ⟨j, hj, hlt⟩
    cases hj
    exact ⟨rfl, hlt⟩
  · rintro ⟨rfl, h⟩
    exact List.mem_map.mpr ⟨b, List.mem_range.mpr h, rfl⟩

/-- Membership in the closing block. -/
theorem mem_closesBlock (i n a b : ℕ) :
    Event.contextClosed a b ∈ closesBlock i n ↔ a = i ∧ b < n := by
  constructor
  · intro h
    rcases closesBlock_shape i n _ h with ⟨j, hj, hlt⟩
    cases hj
    exact ⟨rfl, hlt⟩
  · rintro ⟨rfl, h⟩
    exact List.mem_map.mpr ⟨b, List.mem_range.mpr h, rfl⟩

/-- A nonempty dispatch block contains a dispatch event. -/
theorem runsBlock_ne_nil (i : ℕ) (qs : List String) (h : qs ≠ []) :
    ∃ j q, Event.agentRun i j q ∈ runsBlock i qs := by
  rcases qs with _ | ⟨a, l⟩
  · exact absurd rfl h
  · exact ⟨0, a, List.mem_map.mpr ⟨(0, a), by simp [List.enum_cons], rfl⟩⟩

/-- Count of one creation event in the creation block. -/
theorem count_createsBlock (i n j : ℕ) :
    (createsBlock i n).countP (fun e => e == Event.contextCreated i j) =
      if j < n then 1 else 0 := by
  induction n with
  | zero => simp [createsBlock]
  | succ m ih =>
    rw [createsBlock, List.range_succ, List.map_append, List.countP_append]
    rw [createsBlock] at ih
    rw [ih]
    have hsingle : List.countP (fun e => e == Event.contextCreated i j)
        (List.map (fun j => Event.contextCreated i j) [m]) = if j = m then 1 else 0 := by
      by_cases hj : j = m
      · subst hj; simp
      · have h1 : ((Event.contextCreated i m) == (Event.contextCreated i j)) = false := by
          rw [beq_eq_false_iff_ne]
          intro hcc
          injection hcc with hi hj2
          exact hj hj2.symm
        simp only [List.map_cons, List.map_nil, List.countP_cons, List.countP_nil, h1]
        simp [hj]
    rw [hsingle]
    by_cases h2 : j < m
    · rw [if_pos h2, if_neg (by omega), if_pos (by omega)]
    · by_cases h3 : j = m
      · rw [if_neg (by omega), if_pos h3, if_pos (by omega)]
      · rw [if_neg h2, if_neg h3, if_neg (by omega)]

/-- Count of one closing event in the closing block. -/
theorem count_closesBlock (i n j : ℕ) :
    (closesBlock i n).countP (fun e => e == Event.contextClosed i j) =
      if j < n then 1 else 0 := by
  induction n with
  | zero => simp [closesBlock]
  | succ m ih =>
    rw [closesBlock, List.range_succ, List.map_append, List.countP_append]
    rw [closesBlock] at ih
    rw [ih]
    have hsingle : List.countP (fun e => e == Event.contextClosed i j)
        (List.map (fun j => Event.contextClosed i j) [m]) = if j = m then 1 else 0 := by
      by_cases hj : j = m
      · subst hj; simp
      · have h1 : ((Event.contextClosed i m) == (Event.contextClosed i j)) = false := by
          rw [beq_eq_false_iff_ne]
          intro hcc
          injection hcc with hi hj2
          exact hj hj2.symm
        simp only [List.map_cons, List.map_nil, List.countP_cons, List.countP_nil, h1]
        simp [hj]
    rw [hsingle]
    by_cases h2 : j < m
    · rw [if_pos h2, if_neg (by omega), if_pos (by omega)]
    · by_cases h3 : j = m
      · rw [if_neg (by omega), if_pos h3, if_pos (by omega)]
      · rw [if_neg h2, if_neg h3, if_neg (by omega)]

/-- Count of matching dispatches in the dispatch block equals the count
of matching queries in the batch. -/
theorem count_runsBlock (i : ℕ) (n : String) (qs : List String) :
    (runsBlock i qs).countP (runPred i n) =
      qs.countP (fun q => isUrlQuery q && (normalize_url q == n)) := by
  unfold runsBlock
  rw [List.countP_map]
  have h : ∀ k, (List.enumFrom k qs).countP
      (runPred i n ∘ fun (jq : Nat × String) => Event.agentRun i jq.1 jq.2) =
      qs.countP (fun q => isUrlQuery q && (normalize_url q == n)) := by
    induction qs with
    | nil => intro k; rfl
    | cons a l ih =>
      intro k
      rw [List.enumFrom_cons, List.countP_cons, List.countP_cons, ih (k + 1)]
      have he : (runPred i n ∘ fun (jq : Nat × String) =>
          Event.agentRun i jq.1 jq.2) (k, a) =
          (isUrlQuery a && (normalize_url a == n)) := by
        simp [runPred]
      rw [he]
  exact h 0

/-- Comparison of two events with known tags. -/
theorem tagLe_of_tags {a b : Event} (x y : ℕ) (ha : evTag a = some x)
    (hb : evTag b = some y) (h : x ≤ y) : tagLe a b := by
  unfold tagLe
  rw [ha, hb]
  exact h

/-- Block properties for an iteration that stops at the planner. -/
theorem blockOk_planner (i : ℕ) (qp : QueryPrompt) (hqp : qp.iter = i) :
    BlockOk i [Event.plannerInvoked qp] := by
  constructor
  · intro e he
    rcases List.mem_singleton.mp he with rfl
    exact ⟨5 * i, by simp [evTag, hqp], by omega, by omega⟩
  · exact List.pairwise_singleton _ _
  · intro j; simp [List.countP_cons]
  · intro j; simp [List.countP_cons]
  · intro j h; simp at h
  · rintro ⟨j, q, h⟩; simp at h
  · intro _ j h; simp at h

/-- Block properties for an iteration that creates contexts and then
stops because every candidate was already visited. -/
theorem blockOk_alldup (i n : ℕ) (qp : QueryPrompt) (hqp : qp.iter = i) :
    BlockOk i ([Event.plannerInvoked qp] ++ createsBlock i n) := by
  constructor
  · intro e he
    rcases List.mem_append.mp he with h | h
    · rcases List.mem_singleton.mp h with rfl
      exact ⟨5 * i, by simp [evTag, hqp], by omega, by omega⟩
    · rcases createsBlock_shape i n e h with ⟨j, rfl, _⟩
      exact ⟨5 * i + 1, rfl, by omega, by omega⟩
  · rw [List.pairwise_append]
    refine ⟨List.pairwise_singleton _ _, ?_, ?_⟩
    · refine pairwiseOfForall _ ?_
      intro a ha b hb
      rcases createsBlock_shape i n a ha with ⟨j1, rfl, _⟩
      rcases createsBlock_shape i n b hb with ⟨j2, rfl, _⟩
      exact tagLe_of_tags (5 * i + 1) (5 * i + 1) rfl rfl le_rfl
    · intro a ha b hb
      rcases List.mem_singleton.mp ha with rfl
      rcases createsBlock_shape i n b hb with ⟨j2, rfl, _⟩
      exact tagLe_of_tags (5 * i) (5 * i + 1) (by simp [evTag, hqp]) rfl (by omega)
  · intro j
    rw [List.countP_append]
    have h1 : List.countP (fun e => e == Event.contextCreated i j)
        [Event.plannerInvoked qp] = 0 := by simp [List.countP_cons]
    rw [h1, count_createsBlock]
    split <;> omega
  · intro j
    rw [List.countP_append]
    have h1 : List.countP (fun e => e == Event.contextClosed i j)
        [Event.plannerInvoked qp] = 0 := by simp [List.countP_cons]
    rw [h1]
    have h2 : List.countP (fun e => e == Event.contextClosed i j)
        (createsBlock i n) = 0 := by
      rw [List.countP_eq_zero]
      intro e he
      rcases createsBlock_shape i n e he with ⟨j2, rfl, _⟩
      simp
    omega
  · intro j h
    rcases List.mem_append.mp h with h | h
    · simp at h
    · rcases createsBlock_shape i n _ h with ⟨j2, hj2, _⟩
      cases hj2
  · rintro ⟨j, q, h⟩
    rcases List.mem_append.mp h with h | h
    · simp at h
    · rcases createsBlock_shape i n _ h with ⟨j2, hj2, _⟩
      cases hj2
  · intro _ j h
    rcases List.mem_append.mp h with h | h
    · simp at h
    · rcases createsBlock_shape i n _ h with ⟨j2, hj2, _⟩
      cases hj2

/-- Shape of the optional recorder suffix. -/
theorem recBlock_shape (i : ℕ) (ro : Option RecordPrompt) :
    ∀ e ∈ recBlock i ro, ∃ rp, e = Event.recorderInvoked i rp := by
  intro e he
  cases ro with
  | none => cases he
  | some rp =>
      rcases List.mem_singleton.mp he with rfl
      exact ⟨rp, rfl⟩

/-- Block properties for a dispatching iteration: planner call, context
creations, agent dispatches, context closes and the optional recorder
call. -/
theorem blockOk_dispatch (i n : ℕ) (qp : QueryPrompt) (fqs : List String)
    (ro : Option RecordPrompt) (hqp : qp.iter = i) (hf : fqs ≠ []) :
    BlockOk i ([Event.plannerInvoked qp] ++ createsBlock i n ++ runsBlock i fqs ++
      closesBlock i n ++ recBlock i ro) := by
  have memCases : ∀ e, e ∈ [Event.plannerInvoked qp] ++ createsBlock i n ++
      runsBlock i fqs ++ closesBlock i n ++ recBlock i ro →
      e ∈ [Event.plannerInvoked qp] ∨ e ∈ createsBlock i n ∨ e ∈ runsBlock i fqs ∨
        e ∈ closesBlock i n ∨ e ∈ recBlock i ro := by
    intro e he
    rcases List.mem_append.mp he with he | he
    · rcases List.mem_append.mp he with he | he
      · rcases List.mem_append.mp he with he | he
        · rcases List.mem_append.mp he with he | he
          · exact Or.inl he
          · exact Or.inr (Or.inl he)
        · exact Or.inr (Or.inr (Or.inl he))
      · exact Or.inr (Or.inr (Or.inr (Or.inl he)))
    · exact Or.inr (Or.inr (Or.inr (Or.inr he)))
  have tagOf : ∀ e ∈ [Event.plannerInvoked qp] ++ createsBlock i n ++
      runsBlock i fqs ++ closesBlock i n ++ recBlock i ro,
      ∃ t, evTag e = some t ∧ 5 * i ≤ t ∧ t ≤ 5 * i + 4 := by
    intro e he
    rcases memCases e he with h | h | h | h | h
    · rcases List.mem_singleton.mp h with rfl
      exact ⟨5 * i, by simp [evTag, hqp], by omega, by omega⟩
    · rcases createsBlock_shape i n e h with ⟨j, rfl, _⟩
      exact ⟨5 * i + 1, rfl, by omega, by omega⟩
    · rcases runsBlock_shape i fqs e h with ⟨j, q, rfl, _⟩
      exact ⟨5 * i + 2, rfl, by omega, by omega⟩
    · rcases closesBlock_shape i n e h with ⟨j, rfl, _⟩
      exact ⟨5 * i + 3, rfl, by omega, by omega⟩
    · rcases recBlock_shape i ro e h with ⟨rp, rfl⟩
      exact ⟨5 * i + 4, rfl, by omega, by omega⟩
  constructor
  · exact tagOf
  · have hpw : ∀ (l1 l2 : List Event), l1.Pairwise tagLe → l2.Pairwise tagLe →
        (∀ a ∈ l1, ∀ b ∈ l2, tagLe a b) → (l1 ++ l2).Pairwise tagLe := by
      intro l1 l2 h1 h2 h12
      exact List.pairwise_append.mpr ⟨h1, h2, h12⟩
    have tagsOfPiece : ∀ (l : List Event) (t : ℕ), (∀ e ∈ l, evTag e = some t) →
        l.Pairwise tagLe := by
      intro l t ht
      refine pairwiseOfForall _ ?_
      intro a ha b hb
      exact tagLe_of_tags t t (ht a ha) (ht b hb) le_rfl
    have hle : ∀ (l1 l2 : List Event) (t1 t2 : ℕ), t1 ≤ t2 →
        (∀ e ∈ l1, evTag e = some t1) → (∀ e ∈ l2, evTag e = some t2) →
        ∀ a ∈ l1, ∀ b ∈ l2, tagLe a b := by
      intro l1 l2 t1 t2 h12 ht1 ht2 a ha b hb
      exact tagLe_of_tags t1 t2 (ht1 a ha) (ht2 b hb) h12
    have tcr : ∀ e ∈ createsBlock i n, evTag e = some (5 * i + 1) := by
      intro e he; rcases createsBlock_shape i n e he with ⟨j, rfl, _⟩; rfl
    have trn : ∀ e ∈ runsBlock i fqs, evTag e = some (5 * i + 2) := by
      intro e he; rcases runsBlock_shape i fqs e he with ⟨j, q, rfl, _⟩; rfl
    have tcl : ∀ e ∈ closesBlock i n, evTag e = some (5 * i + 3) := by
      intro e he; rcases closesBlock_shape i n e he with ⟨j, rfl, _⟩; rfl
    have trc : ∀ e ∈ recBlock i ro, evTag e = some (5 * i + 4) := by
      intro e he; rcases recBlock_shape i ro e he with ⟨rp, rfl⟩; rfl
    have tpl : ∀ e ∈ [Event.plannerInvoked qp], evTag e = some (5 * i) := by
      intro e he; rcases List.mem_singleton.mp he with rfl; simp [evTag, hqp]
    have hup : ∀ (l1 l2 : List Event) (t1 t2 : ℕ), t1 ≤ t2 →
        (∀ e ∈ l1, ∃ t, evTag e = some t ∧ t ≤ t1) →
        (∀ e ∈ l2, evTag e = some t2) →
        ∀ a ∈ l1, ∀ b ∈ l2, tagLe a b := by
      intro l1 l2 t1 t2 h12 ht1 ht2 a ha b hb
      rcases ht1 a ha with ⟨t, hta, htle⟩
      exact tagLe_of_tags t t2 hta (ht2 b hb) (by omega)
    refine hpw _ _ ?_ ?_ ?_
    · refine hpw _ _ ?_ ?_ ?_
      · refine hpw _ _ ?_ ?_ ?_
        · refine hpw _ _ (List.pairwise_singleton _ _) (tagsOfPiece _ _ tcr) ?_
          · exact hle _ _ (5 * i) (5 * i + 1) (by omega) tpl tcr
        · exact tagsOfPiece _ _ trn
        · refine hup _ _ (5 * i + 1) (5 * i + 2) (by omega) ?_ trn
          intro e he
          rcases List.mem_append.mp he with he | he
          · exact ⟨5 * i, tpl e he, by omega⟩
          · exact ⟨5 * i + 1, tcr e he, by omega⟩
      · exact tagsOfPiece _ _ tcl
      · refine hup _ _ (5 * i + 2) (5 * i + 3) (by omega) ?_ tcl
        intro e he
        rcases List.mem_append.mp he with he | he
        · rcases List.mem_append.mp he with he | he
          · exact ⟨5 * i, tpl e he, by omega⟩
          · exact ⟨5 * i + 1, tcr e he, by omega⟩
        · exact ⟨5 * i + 2, trn e he, by omega⟩
    · exact tagsOfPiece _ _ trc
    · refine hup _ _ (5 * i + 3) (5 * i + 4) (by omega) ?_ trc
      intro e he
      rcases List.mem_append.mp he with he | he
      · rcases List.mem_append.mp he with he | he
        · rcases List.mem_append.mp he with he | he
          · exact ⟨5 * i, tpl e he, by omega⟩
          · exact ⟨5 * i + 1, tcr e he, by omega⟩
        · exact ⟨5 * i + 2, trn e he, by omega⟩
      · exact ⟨5 * i + 3, tcl e he, by omega⟩
  · intro j
    rw [List.countP_append, List.countP_append, List.countP_append, List.countP_append]
    have h0 : List.countP (fun e => e == Event.contextCreated i j)
        [Event.plannerInvoked qp] = 0 := by simp [List.countP_cons]
    have hr : List.countP (fun e => e == Event.contextCreated i j)
        (runsBlock i fqs) = 0 := by
      rw [List.countP_eq_zero]
      intro e he
      rcases runsBlock_shape i fqs e he with ⟨j2, q, rfl, _⟩
      simp
    have hc : List.countP (fun e => e == Event.contextCreated i j)
        (closesBlock i n) = 0 := by
      rw [List.countP_eq_zero]
      intro e he
      rcases closesBlock_shape i n e he with ⟨j2, rfl, _⟩
      simp
    have hrc : List.countP (fun e => e == Event.contextCreated i j)
        (recBlock i ro) = 0 := by
      rw [List.countP_eq_zero]
      intro e he
      rcases recBlock_shape i ro e he with ⟨rp, rfl⟩
      simp
    rw [h0, hr, hc, hrc, count_createsBlock]
    split <;> omega
  · intro j
    rw [List.countP_append, List.countP_append, List.countP_append, List.countP_append]
    have h0 : List.countP (fun e => e == Event.contextClosed i j)
        [Event.plannerInvoked qp] = 0 := by simp [List.countP_cons]
    have hr : List.countP (fun e => e == Event.contextClosed i j)
        (runsBlock i fqs) = 0 := by
      rw [List.countP_eq_zero]
      intro e he
      rcases runsBlock_shape i fqs e he with ⟨j2, q, rfl, _⟩
      simp
    have hc : List.countP (fun e => e == Event.contextClosed i j)
        (createsBlock i n) = 0 := by
      rw [List.countP_eq_zero]
      intro e he
      rcases createsBlock_shape i n e he with ⟨j2, rfl, _⟩
      simp
    have hrc : List.countP (fun e => e == Event.contextClosed i j)
        (recBlock i ro) = 0 := by
      rw [List.countP_eq_zero]
      intro e he
      rcases recBlock_shape i ro e he with ⟨rp, rfl⟩
      simp
    rw [h0, hr, hc, hrc, count_closesBlock]
    split <;> omega
  · intro j h
    rcases memCases _ h with h | h | h | h | h
    · simp at h
    · rcases createsBlock_shape i n _ h with ⟨j2, hj2, _⟩; cases hj2
    · rcases runsBlock_shape i fqs _ h with ⟨j2, q, hj2, _⟩; cases hj2
    · rcases closesBlock_shape i n _ h with ⟨j2, hj2, hlt⟩
      have : j = j2 := by injection hj2 with h1 h2
      subst this
      refine List.mem_append.mpr (Or.inl ?_)
      refine List.mem_append.mpr (Or.inl ?_)
      refine List.mem_append.mpr (Or.inl ?_)
      refine List.mem_append.mpr (Or.inr ?_)
      exact (mem_createsBlock i n i j).mpr ⟨rfl, hlt⟩
    · rcases recBlock_shape i ro _ h with ⟨rp, hj2⟩; cases hj2
  · intro _ j h
    rcases memCases _ h with h | h | h | h | h
    · simp at h
    · rcases createsBlock_shape i n _ h with ⟨j2, hj2, hlt⟩
      have : j = j2 := by injection hj2 with h1 h2
      subst this
      refine List.mem_append.mpr (Or.inl ?_)
      refine List.mem_append.mpr (Or.inr ?_)
      exact (mem_closesBlock i n i j).mpr ⟨rfl, hlt⟩
    · rcases runsBlock_shape i fqs _ h with ⟨j2, q, hj2, _⟩; cases hj2
    · rcases closesBlock_shape i n _ h with ⟨j2, hj2, _⟩; cases hj2
    · rcases recBlock_shape i ro _ h with ⟨rp, hj2⟩; cases hj2
  · intro hno j
    rcases runsBlock_ne_nil i fqs hf with ⟨j2, q, hq⟩
    exfalso
    refine hno j2 q ?_
    refine List.mem_append.mpr (Or.inl ?_)
    refine List.mem_append.mpr (Or.inl ?_)
    refine List.mem_append.mpr (Or.inr hq)

/-- The creation block contains no dispatch matches. -/
theorem countP_runPred_createsBlock (i i2 n : ℕ) (nrm : String) :
    (createsBlock i n).countP (runPred i2 nrm) = 0 := by
  rw [List.countP_eq_zero]
  intro e he
  rcases createsBlock_shape i n e he with ⟨j, rfl, _⟩
  simp [runPred]

/-- The closing block contains no dispatch matches. -/
theorem countP_runPred_closesBlock (i i2 n : ℕ) (nrm : String) :
    (closesBlock i n).countP (runPred i2 nrm) = 0 := by
  rw [List.countP_eq_zero]
  intro e he
  rcases closesBlock_shape i n e he with ⟨j, rfl, _⟩
  simp [runPred]

/-- The optional recorder suffix contains no dispatch matches. -/
theorem countP_runPred_recBlock (i i2 : ℕ) (ro : Option RecordPrompt) (nrm : String) :
    (recBlock i ro).countP (runPred i2 nrm) = 0 := by
  rw [List.countP_eq_zero]
  intro e he
  rcases recBlock_shape i ro e he with ⟨rp, rfl⟩
  simp [runPred]

/-- Dispatch matches in the dispatch block are bounded by the count over
its query list. -/
theorem countP_runPred_runsBlock_le (i : ℕ) (fqs : List String) (nrm : String) :
    (runsBlock i fqs).countP (runPred i nrm) =
      fqs.countP (fun q => isUrlQuery q && (normalize_url q == nrm)) :=
  count_runsBlock i nrm fqs

/-- Planner prompts in a dispatch-shaped block are the block head. -/
theorem plannerPrompt_mem_block (i n1 n2 : ℕ) (qp : QueryPrompt)
    (fqs : List String) (ro : Option RecordPrompt) (p : QueryPrompt)
    (hp : Event.plannerInvoked p ∈ [Event.plannerInvoked qp] ++
      createsBlock i n1 ++ runsBlock i fqs ++ closesBlock i n2 ++ recBlock i ro) :
    p = qp := by
  rcases List.mem_append.mp hp with hp | hp
  swap
  · rcases recBlock_shape _ _ _ hp with ⟨rp, hj⟩
    cases hj
  rcases List.mem_append.mp hp with hp | hp
  swap
  · rcases closesBlock_shape _ _ _ hp with ⟨j, hj, _⟩
    cases hj
  rcases List.mem_append.mp hp with hp | hp
  swap
  · rcases runsBlock_shape _ _ _ hp with ⟨j, q, hj, _⟩
    cases hj
  rcases List.mem_append.mp hp with hp | hp
  · have h := List.mem_singleton.mp hp
    injection h
  · rcases createsBlock_shape _ _ _ hp with ⟨j, hj, _⟩
    cases hj

/-- Recorder prompts in a dispatch-shaped block come from its recorder
suffix. -/
theorem recorderPrompt_mem_block (i n1 n2 i2 : ℕ) (qp : QueryPrompt)
    (fqs : List String) (ro : Option RecordPrompt) (rp : RecordPrompt)
    (hrp : Event.recorderInvoked i2 rp ∈ [Event.plannerInvoked qp] ++
      createsBlock i n1 ++ runsBlock i fqs ++ closesBlock i n2 ++ recBlock i ro) :
    ro = some rp := by
  rcases List.mem_append.mp hrp with hrp | hrp
  swap
  · rcases recBlock_shape _ _ _ hrp with ⟨rp2, hj⟩
    injection hj with h1 h2
    subst h2
    cases ro with
    | none => cases hrp
    | some rp3 =>
        rcases List.mem_singleton.mp hrp with h
        injection h with h3 h4
        rw [h4]
  rcases List.mem_append.mp hrp with hrp | hrp
  swap
  · rcases closesBlock_shape _ _ _ hrp with ⟨j, hj, _⟩
    cases hj
  rcases List.mem_append.mp hrp with hrp | hrp
  swap
  · rcases runsBlock_shape _ _ _ hrp with ⟨j, q, hj, _⟩
    cases hj
  rcases List.mem_append.mp hrp with hrp | hrp
  · have h := List.mem_singleton.mp hrp
    cases h
  · rcases createsBlock_shape _ _ _ hrp with ⟨j, hj, _⟩
    cases hj

/-- Dispatch-match count of a dispatch-shaped block reduces to its query
list. -/
theorem countP_runPred_block (i n1 n2 : ℕ) (qp : QueryPrompt)
    (fqs : List String) (ro : Option RecordPrompt) (nrm : String) :
    ([Event.plannerInvoked qp] ++ createsBlock i n1 ++ runsBlock i fqs ++
        closesBlock i n2 ++ recBlock i ro).countP (runPred i nrm) =
      fqs.countP (fun q => isUrlQuery q && (normalize_url q == nrm)) := by
  rw [List.countP_append, List.countP_append, List.countP_append,
    List.countP_append, countP_runPred_createsBlock, countP_runPred_closesBlock,
    countP_runPred_recBlock, countP_runPred_runsBlock_le]
  have h1 : List.countP (runPred i nrm) [Event.plannerInvoked qp] = 0 := by
    simp [List.countP_cons, runPred]
  rw [h1]
  omega

/-- Characterization of one loop-body execution, used by the run-level
lemmas: the new state extends the old event list by a block of events of
the new iteration satisfying the block invariants; the planner prompt of
the block is built from the task variable, the query history and the
ledger at entry; any recorder prompt of the block carries the last
planner query of the iteration, the prior ledger and the last non-None
batch transcript; dispatch matches for any normalized URL are unique in
the block; and the query history is extended by exactly the accepted
planner queries. -/
theorem stepOnce_spec (o : Oracle) (m : ℕ) (s : LoopState) :
    ∃ bl,
      (stepState (stepOnce o m s)).events = s.events ++ bl ∧
      (stepState (stepOnce o m s)).iter = s.iter + 1 ∧
      BlockOk (s.iter + 1) bl ∧
      (∀ p, Event.plannerInvoked p ∈ bl →
        p = ⟨s.iter + 1, m, s.taskVar, s.historyQuery, s.historyInfos⟩) ∧
      (∀ rp, Event.recorderInvoked (s.iter + 1) rp ∈ bl →
        ∃ qs r, o.planner (s.iter + 1) = .ok qs ∧ qs ≠ [] ∧
          (filterQueryTasks s.visited qs).1 ≠ [] ∧
          batchLastResult o (s.iter + 1) (filterQueryTasks s.visited qs).1.length
            s.lastQR = some r ∧
          rp = ⟨qs.getLastD s.taskVar, s.historyInfos, r⟩) ∧
      (∀ n, bl.countP (runPred (s.iter + 1) n) ≤ 1) ∧
      (∀ qs, o.planner (s.iter + 1) = .ok qs → qs ≠ [] →
        (stepState (stepOnce o m s)).historyQuery = s.historyQuery ++ qs) ∧
      (∀ q ∈ s.historyQuery, q ∈ (stepState (stepOnce o m s)).historyQuery) := by
  rcases hpl : o.planner (s.iter + 1) with _ | _ | _ | _ | qs
  case raised =>
    refine ⟨[Event.plannerInvoked
      ⟨s.iter + 1, m, s.taskVar, s.historyQuery, s.historyInfos⟩],
      ?_, ?_, blockOk_planner _ _ rfl, ?_, ?_, ?_, ?_, ?_⟩
    · simp [stepOnce, hpl, stepState]
    · simp [stepOnce, hpl, stepState]
    · intro p hp
      have := List.mem_singleton.mp hp
      injection this
    · intro rp hrp
      have := List.mem_singleton.mp hrp
      cases this
    · intro n
      simp [List.countP_cons, runPred]
    · intro qs2 hq2
      cases hq2
    · intro q hq
      simp [stepOnce, hpl, stepState]
      exact hq
  case retNone =>
    refine ⟨[Event.plannerInvoked
      ⟨s.iter + 1, m, s.taskVar, s.historyQuery, s.historyInfos⟩],
      ?_, ?_, blockOk_planner _ _ rfl, ?_, ?_, ?_, ?_, ?_⟩
    · simp [stepOnce, hpl, stepState]
    · simp [stepOnce, hpl, stepState]
    · intro p hp
      have := List.mem_singleton.mp hp
      injection this
    · intro rp hrp
      have := List.mem_singleton.mp hrp
      cases this
    · intro n
      simp [List.countP_cons, runPred]
    · intro qs2 hq2
      cases hq2
    · intro q hq
      simp [stepOnce, hpl, stepState]
      exact hq
  case parseFail =>
    refine ⟨[Event.plannerInvoked
      ⟨s.iter + 1, m, s.taskVar, s.historyQuery, s.historyInfos⟩],
      ?_, ?_, blockOk_planner _ _ rfl, ?_, ?_, ?_, ?_, ?_⟩
    · simp [stepOnce, hpl, stepState]
    · simp [stepOnce, hpl, stepState]
    · intro p hp
      have := List.mem_singleton.mp hp
      injection this
    · intro rp hrp
      have := List.mem_singleton.mp hrp
      cases this
    · intro n
      simp [List.countP_cons, runPred]
    · intro qs2 hq2
      cases hq2
    · intro q hq
      simp [stepOnce, hpl, stepState]
      exact hq
  case badShape =>
    refine ⟨[Event.plannerInvoked
      ⟨s.iter + 1, m, s.taskVar, s.historyQuery, s.historyInfos⟩],
      ?_, ?_, blockOk_planner _ _ rfl, ?_, ?_, ?_, ?_, ?_⟩
    · simp [stepOnce, hpl, stepState]
    · simp [stepOnce, hpl, stepState]
    · intro p hp
      have := List.mem_singleton.mp hp
      injection this
    · intro rp hrp
      have := List.mem_singleton.mp hrp
      cases this
    · intro n
      simp [List.countP_cons, runPred]
    · intro qs2 hq2
      cases hq2
    · intro q hq
      simp [stepOnce, hpl, stepState]
      exact hq
  case ok =>
    by_cases hq0 : qs = []
    · subst hq0
      refine ⟨[Event.plannerInvoked
        ⟨s.iter + 1, m, s.taskVar, s.historyQuery, s.historyInfos⟩],
        ?_, ?_, blockOk_planner _ _ rfl, ?_, ?_, ?_, ?_, ?_⟩
      · simp [stepOnce, hpl, stepState]
      · simp [stepOnce, hpl, stepState]
      · intro p hp
        have := List.mem_singleton.mp hp
        injection this
      · intro rp hrp
        have := List.mem_singleton.mp hrp
        cases this
      · intro n
        simp [List.countP_cons, runPred]
      · intro qs2 hq2 hne
        injection hq2 with h
        exact absurd h.symm hne
      · intro q hq
        simp [stepOnce, hpl, stepState]
        exact hq
    · by_cases hfv : (filterQueryTasks s.visited qs).1 = []
      · refine ⟨[Event.plannerInvoked
          ⟨s.iter + 1, m, s.taskVar, s.historyQuery, s.historyInfos⟩] ++
            createsBlock (s.iter + 1) qs.length,
          ?_, ?_, blockOk_alldup _ _ _ rfl, ?_, ?_, ?_, ?_, ?_⟩
        · simp [stepOnce, hpl, hq0, hfv, stepState]
        · simp [stepOnce, hpl, hq0, hfv, stepState]
        · intro p hp
          rcases List.mem_append.mp hp with hp | hp
          · have := List.mem_singleton.mp hp
            injection this
          · rcases createsBlock_shape _ _ _ hp with ⟨j, hj, _⟩
            cases hj
        · intro rp hrp
          rcases List.mem_append.mp hrp with hrp | hrp
          · have := List.mem_singleton.mp hrp
            cases this
          · rcases createsBlock_shape _ _ _ hrp with ⟨j, hj, _⟩
            cases hj
        · intro n
          rw [List.countP_append, countP_runPred_createsBlock]
          simp [List.countP_cons, runPred]
        · intro qs2 hq2 hne
          injection hq2 with h
          subst h
          simp [stepOnce, hpl, hq0, hfv, stepState]
        · intro q hq
          simp [stepOnce, hpl, hq0, hfv, stepState]
          exact Or.inl hq
      · rcases hqr : batchLastResult o (s.iter + 1)
            (filterQueryTasks s.visited qs).1.length s.lastQR with _ | r
        · refine ⟨[Event.plannerInvoked
            ⟨s.iter + 1, m, s.taskVar, s.historyQuery, s.historyInfos⟩] ++
              createsBlock (s.iter + 1) qs.length ++
              runsBlock (s.iter + 1) (filterQueryTasks s.visited qs).1 ++
              closesBlock (s.iter + 1) qs.length ++ recBlock (s.iter + 1) none,
            ?_, ?_, blockOk_dispatch _ _ _ _ _ rfl hfv, ?_, ?_, ?_, ?_, ?_⟩
          · simp [stepOnce, hpl, hq0, hfv, hqr, stepState, recBlock]
          · simp [stepOnce, hpl, hq0, hfv, hqr, stepState]
          · intro p hp
            exact plannerPrompt_mem_block _ _ _ _ _ _ _ hp
          · intro rp hrp
            have h := recorderPrompt_mem_block _ _ _ _ _ _ _ _ hrp
            cases h
          · intro n
            rw [countP_runPred_block]
            exact (filterQueryTasks_count n qs s.visited).2
          · intro qs2 hq2 hne
            injection hq2 with h
            subst h
            simp [stepOnce, hpl, hq0, hfv, hqr, stepState]
          · intro q hq
            simp [stepOnce, hpl, hq0, hfv, hqr, stepState]
            exact Or.inl hq
        · rcases hrec : o.recorder (s.iter + 1) with _ | _ | _ | facts
          ·
            refine ⟨[Event.plannerInvoked
              ⟨s.iter + 1, m, s.taskVar, s.historyQuery, s.historyInfos⟩] ++
                createsBlock (s.iter + 1) qs.length ++
                runsBlock (s.iter + 1) (filterQueryTasks s.visited qs).1 ++
                closesBlock (s.iter + 1) qs.length ++
                recBlock (s.iter + 1)
                  (some ⟨qs.getLastD s.taskVar, s.historyInfos, r⟩),
              ?_, ?_, blockOk_dispatch _ _ _ _ _ rfl hfv, ?_, ?_, ?_, ?_, ?_⟩
            · simp [stepOnce, hpl, hq0, hfv, hqr, hrec, stepState, recBlock]
            · simp [stepOnce, hpl, hq0, hfv, hqr, hrec, stepState]
            · intro p hp
              exact plannerPrompt_mem_block _ _ _ _ _ _ _ hp
            · intro rp hrp
              have h := recorderPrompt_mem_block _ _ _ _ _ _ _ _ hrp
              injection h with h2
              exact ⟨qs, r, rfl, hq0, hfv, hqr, h2.symm⟩
            · intro n
              rw [countP_runPred_block]
              exact (filterQueryTasks_count n qs s.visited).2
            · intro qs2 hq2 hne
              injection hq2 with h
              subst h
              simp [stepOnce, hpl, hq0, hfv, hqr, hrec, stepState]
            · intro q hq
              simp [stepOnce, hpl, hq0, hfv, hqr, hrec, stepState]
              exact Or.inl hq
          ·
            refine ⟨[Event.plannerInvoked
              ⟨s.iter + 1, m, s.taskVar, s.historyQuery, s.historyInfos⟩] ++
                createsBlock (s.iter + 1) qs.length ++
                runsBlock (s.iter + 1) (filterQueryTasks s.visited qs).1 ++
                closesBlock (s.iter + 1) qs.length ++
                recBlock (s.iter + 1)
                  (some ⟨qs.getLastD s.taskVar, s.historyInfos, r⟩),
              ?_, ?_, blockOk_dispatch _ _ _ _ _ rfl hfv, ?_, ?_, ?_, ?_, ?_⟩
            · simp [stepOnce, hpl, hq0, hfv, hqr, hrec, stepState, recBlock]
            · simp [stepOnce, hpl, hq0, hfv, hqr, hrec, stepState]
            · intro p hp
              exact plannerPrompt_mem_block _ _ _ _ _ _ _ hp
            · intro rp hrp
              have h := recorderPrompt_mem_block _ _ _ _ _ _ _ _ hrp
              injection h with h2
              exact ⟨qs, r, rfl, hq0, hfv, hqr, h2.symm⟩
            · intro n
              rw [countP_runPred_block]
              exact (filterQueryTasks_count n qs s.visited).2
            · intro qs2 hq2 hne
              injection hq2 with h
              subst h
              simp [stepOnce, hpl, hq0, hfv, hqr, hrec, stepState]
            · intro q hq
              simp [stepOnce, hpl, hq0, hfv, hqr, hrec, stepState]
              exact Or.inl hq
          ·
            refine ⟨[Event.plannerInvoked
              ⟨s.iter + 1, m, s.taskVar, s.historyQuery, s.historyInfos⟩] ++
                createsBlock (s.iter + 1) qs.length ++
                runsBlock (s.iter + 1) (filterQueryTasks s.visited qs).1 ++
                closesBlock (s.iter + 1) qs.length ++
                recBlock (s.iter + 1)
                  (some ⟨qs.getLastD s.taskVar, s.historyInfos, r⟩),
              ?_, ?_, blockOk_dispatch _ _ _ _ _ rfl hfv, ?_, ?_, ?_, ?_, ?_⟩
            · simp [stepOnce, hpl, hq0, hfv, hqr, hrec, stepState, recBlock]
            · simp [stepOnce, hpl, hq0, hfv, hqr, hrec, stepState]
            · intro p hp
              exact plannerPrompt_mem_block _ _ _ _ _ _ _ hp
            · intro rp hrp
              have h := recorderPrompt_mem_block _ _ _ _ _ _ _ _ hrp
              injection h with h2
              exact ⟨qs, r, rfl, hq0, hfv, hqr, h2.symm⟩
            · intro n
              rw [countP_runPred_block]
              exact (filterQueryTasks_count n qs s.visited).2
            · intro qs2 hq2 hne
              injection hq2 with h
              subst h
              simp [stepOnce, hpl, hq0, hfv, hqr, hrec, stepState]
            · intro q hq
              simp [stepOnce, hpl, hq0, hfv, hqr, hrec, stepState]
              exact Or.inl hq
          ·
            refine ⟨[Event.plannerInvoked
              ⟨s.iter + 1, m, s.taskVar, s.historyQuery, s.historyInfos⟩] ++
                createsBlock (s.iter + 1) qs.length ++
                runsBlock (s.iter + 1) (filterQueryTasks s.visited qs).1 ++
                closesBlock (s.iter + 1) qs.length ++
                recBlock (s.iter + 1)
                  (some ⟨qs.getLastD s.taskVar, s.historyInfos, r⟩),
              ?_, ?_, blockOk_dispatch _ _ _ _ _ rfl hfv, ?_, ?_, ?_, ?_, ?_⟩
            · simp [stepOnce, hpl, hq0, hfv, hqr, hrec, stepState, recBlock]
            · simp [stepOnce, hpl, hq0, hfv, hqr, hrec, stepState]
            · intro p hp
              exact plannerPrompt_mem_block _ _ _ _ _ _ _ hp
            · intro rp hrp
              have h := recorderPrompt_mem_block _ _ _ _ _ _ _ _ hrp
              injection h with h2
              exact ⟨qs, r, rfl, hq0, hfv, hqr, h2.symm⟩
            · intro n
              rw [countP_runPred_block]
              exact (filterQueryTasks_count n qs s.visited).2
            · intro qs2 hq2 hne
              injection hq2 with h
              subst h
              simp [stepOnce, hpl, hq0, hfv, hqr, hrec, stepState]
            · intro q hq
              simp [stepOnce, hpl, hq0, hfv, hqr, hrec, stepState]
              exact Or.inl hq

/-- The initial state satisfies the trace invariant. -/
theorem traceInv_init (task : String) : TraceInv (initState task) := by
  constructor <;> simp [initState]

/-- One loop-body execution preserves the trace invariant. -/
theorem traceInv_step (o : Oracle) (m : ℕ) (s : LoopState) (inv : TraceInv s) :
    TraceInv (stepState (stepOnce o m s)) := by
  obtain ⟨bl, hev, hit, hbo, hpp, hrp, hrc, hh1, hh2⟩ := stepOnce_spec o m s
  have oldBound : ∀ e ∈ s.events, ∃ t, evTag e = some t ∧ t ≤ 5 * s.iter + 4 :=
    inv.tags
  have blBound : ∀ e ∈ bl, ∃ t, evTag e = some t ∧
      5 * (s.iter + 1) ≤ t ∧ t ≤ 5 * (s.iter + 1) + 4 := hbo.tags
  have createdOldIter : ∀ i j, Event.contextCreated i j ∈ s.events → i ≤ s.iter := by
    intro i j h
    rcases oldBound _ h with ⟨t, ht, hb⟩
    have : t = 5 * i + 1 := by
      simp [evTag] at ht
      omega
    omega
  have closedOldIter : ∀ i j, Event.contextClosed i j ∈ s.events → i ≤ s.iter := by
    intro i j h
    rcases oldBound _ h with ⟨t, ht, hb⟩
    have : t = 5 * i + 3 := by
      simp [evTag] at ht
      omega
    omega
  have runOldIter : ∀ i j q, Event.agentRun i j q ∈ s.events → i ≤ s.iter := by
    intro i j q h
    rcases oldBound _ h with ⟨t, ht, hb⟩
    have : t = 5 * i + 2 := by
      simp [evTag] at ht
      omega
    omega
  have createdBlIter : ∀ i j, Event.contextCreated i j ∈ bl → i = s.iter + 1 := by
    intro i j h
    rcases blBound _ h with ⟨t, ht, hb1, hb2⟩
    have : t = 5 * i + 1 := by
      simp [evTag] at ht
      omega
    omega
  have closedBlIter : ∀ i j, Event.contextClosed i j ∈ bl → i = s.iter + 1 := by
    intro i j h
    rcases blBound _ h with ⟨t, ht, hb1, hb2⟩
    have : t = 5 * i + 3 := by
      simp [evTag] at ht
      omega
    omega
  have runBlIter : ∀ i j q, Event.agentRun i j q ∈ bl → i = s.iter + 1 := by
    intro i j q h
    rcases blBound _ h with ⟨t, ht, hb1, hb2⟩
    have : t = 5 * i + 2 := by
      simp [evTag] at ht
      omega
    omega
  have countCreatedOldZero : ∀ j, s.events.countP
      (fun e => e == Event.contextCreated (s.iter + 1) j) = 0 := by
    intro j
    rw [List.countP_eq_zero]
    intro e he hpred
    have : e = Event.contextCreated (s.iter + 1) j := eq_of_beq hpred
    subst this
    have := createdOldIter _ _ he
    omega
  have countClosedOldZero : ∀ j, s.events.countP
      (fun e => e == Event.contextClosed (s.iter + 1) j) = 0 := by
    intro j
    rw [List.countP_eq_zero]
    intro e he hpred
    have : e = Event.contextClosed (s.iter + 1) j := eq_of_beq hpred
    subst this
    have := closedOldIter _ _ he
    omega
  have countCreatedBlZero : ∀ i j, i ≠ s.iter + 1 → bl.countP
      (fun e => e == Event.contextCreated i j) = 0 := by
    intro i j hne
    rw [List.countP_eq_zero]
    intro e he hpred
    have : e = Event.contextCreated i j := eq_of_beq hpred
    subst this
    exact hne (createdBlIter _ _ he)
  have countClosedBlZero : ∀ i j, i ≠ s.iter + 1 → bl.countP
      (fun e => e == Event.contextClosed i j) = 0 := by
    intro i j hne
    rw [List.countP_eq_zero]
    intro e he hpred
    have : e = Event.contextClosed i j := eq_of_beq hpred
    subst this
    exact hne (closedBlIter _ _ he)
  have countRunOldZero : ∀ n, s.events.countP (runPred (s.iter + 1) n) = 0 := by
    intro n
    rw [List.countP_eq_zero]
    intro e he hpred
    rcases e with p | ⟨i2, j⟩ | ⟨i2, j, q⟩ | ⟨i2, j⟩ | ⟨i2, rp2⟩ | rp2 | _ <;>
      simp [runPred] at hpred
    obtain ⟨h1, h2, h3⟩ := hpred
    subst h1
    have := runOldIter _ _ _ he
    omega
  have countRunBlZero : ∀ i n, i ≠ s.iter + 1 → bl.countP (runPred i n) = 0 := by
    intro i n hne
    rw [List.countP_eq_zero]
    intro e he hpred
    rcases e with p | ⟨i2, j⟩ | ⟨i2, j, q⟩ | ⟨i2, j⟩ | ⟨i2, rp2⟩ | rp2 | _ <;>
      simp [runPred] at hpred
    obtain ⟨h1, h2, h3⟩ := hpred
    subst h1
    exact hne (runBlIter _ _ _ he)
  constructor
  · rw [hit, hev]
    intro e he
    rcases List.mem_append.mp he with h | h
    · rcases oldBound e h with ⟨t, ht, hb⟩
      exact ⟨t, ht, by omega⟩
    · rcases blBound e h with ⟨t, ht, _, hb⟩
      exact ⟨t, ht, by omega⟩
  · rw [hev]
    refine List.pairwise_append.mpr ⟨inv.sorted, hbo.sorted, ?_⟩
    intro a ha b hb
    rcases oldBound a ha with ⟨ta, hta, hba⟩
    rcases blBound b hb with ⟨tb, htb, hbb1, hbb2⟩
    exact tagLe_of_tags ta tb hta htb (by omega)
  · intro i j
    rw [hev, List.countP_append]
    by_cases hi : i = s.iter + 1
    · subst hi
      rw [countCreatedOldZero j]
      have := hbo.createdOnce j
      omega
    · rw [countCreatedBlZero i j hi]
      have := inv.createdOnce i j
      omega
  · intro i j
    rw [hev, List.countP_append]
    by_cases hi : i = s.iter + 1
    · subst hi
      rw [countClosedOldZero j]
      have := hbo.closedOnce j
      omega
    · rw [countClosedBlZero i j hi]
      have := inv.closedOnce i j
      omega
  · intro i j
    rw [hev]
    intro h
    rcases List.mem_append.mp h with h | h
    · exact List.mem_append.mpr (Or.inl (inv.closedSub i j h))
    · have hi := closedBlIter _ _ h
      subst hi
      exact List.mem_append.mpr (Or.inr (hbo.closedSub j h))
  · intro i
    rw [hev]
    intro hrun j hcr
    by_cases hi : i = s.iter + 1
    · subst hi
      rcases hrun with ⟨j2, q, hq⟩
      rcases List.mem_append.mp hq with hq | hq
      · have := runOldIter _ _ _ hq
        omega
      · rcases List.mem_append.mp hcr with hcr | hcr
        · have := createdOldIter _ _ hcr
          omega
        · exact List.mem_append.mpr (Or.inr (hbo.closedAll ⟨j2, q, hq⟩ j hcr))
    · rcases hrun with ⟨j2, q, hq⟩
      rcases List.mem_append.mp hq with hq | hq
      swap
      · exact absurd (runBlIter _ _ _ hq) hi
      rcases List.mem_append.mp hcr with hcr | hcr
      swap
      · exact absurd (createdBlIter _ _ hcr) hi
      exact List.mem_append.mpr (Or.inl (inv.closedAll i ⟨j2, q, hq⟩ j hcr))
  · intro i
    rw [hev]
    intro hno j hcl
    rcases List.mem_append.mp hcl with hcl | hcl
    · refine inv.noRunNoClose i ?_ j hcl
      intro j2 q hq
      exact hno j2 q (List.mem_append.mpr (Or.inl hq))
    · have hi := closedBlIter _ _ hcl
      subst hi
      refine hbo.noRunNoClose ?_ j hcl
      intro j2 q hq
      exact hno j2 q (List.mem_append.mpr (Or.inr hq))
  · intro i n
    rw [hev, List.countP_append]
    by_cases hi : i = s.iter + 1
    · subst hi
      rw [countRunOldZero n]
      have := hrc n
      omega
    · rw [countRunBlZero i n hi]
      have := inv.runsOnce i n
      omega

/-- The loop preserves the trace invariant. -/
theorem traceInv_loopRun (o : Oracle) (m : ℕ) :
    ∀ fuel s, TraceInv s → TraceInv (loopRun o m fuel s).1 := by
  intro fuel
  induction fuel with
  | zero => intro s h; exact h
  | succ n ih =>
    intro s h
    have hstep := traceInv_step o m s h
    rcases hout : stepOnce o m s with s2 | s2 | s2 <;>
      rw [hout] at hstep <;>
      simp only [loopRun, hout]
    · exact ih s2 hstep
    · exact hstep
    · exact hstep

/-- The loop only appends events, and every planner prompt it appends
belongs to a later iteration than the entry state. -/
theorem loopRun_events_mono (o : Oracle) (m : ℕ) :
    ∀ fuel s, ∃ rest, (loopRun o m fuel s).1.events = s.events ++ rest ∧
      (∀ p, Event.plannerInvoked p ∈ rest → s.iter < p.iter) ∧
      (∀ q ∈ s.historyQuery, q ∈ (loopRun o m fuel s).1.historyQuery) := by
  intro fuel
  induction fuel with
  | zero =>
    intro s
    exact ⟨[], by simp [loopRun], by simp, by simp [loopRun]⟩
  | succ n ih =>
    intro s
    obtain ⟨bl, hev, hit, hbo, hpp, _, _, _, hh2⟩ := stepOnce_spec o m s
    have hblIter : ∀ p, Event.plannerInvoked p ∈ bl → p.iter = s.iter + 1 := by
      intro p hp
      rw [hpp p hp]
    rcases hout : stepOnce o m s with s2 | s2 | s2 <;>
      rw [hout] at hev hit hh2 <;> simp only [stepState] at hev hit hh2 <;>
      simp only [loopRun, hout]
    · obtain ⟨rest2, hev2, hpl2, hh2b⟩ := ih s2
      refine ⟨bl ++ rest2, ?_, ?_, ?_⟩
      · rw [hev2, hev, List.append_assoc]
      · intro p hp
        rcases List.mem_append.mp hp with hp | hp
        · rw [hblIter p hp]; omega
        · have := hpl2 p hp
          omega
      · intro q hq
        exact hh2b q (hh2 q hq)
    · exact ⟨bl, hev, fun p hp => by rw [hblIter p hp]; omega, hh2⟩
    · exact ⟨bl, hev, fun p hp => by rw [hblIter p hp]; omega, hh2⟩

/-- Planner prompts of later iterations include the whole query history
of the current state. -/
theorem loopRun_prompts_include (o : Oracle) (m : ℕ) :
    ∀ fuel s, (∀ p, Event.plannerInvoked p ∈ s.events → p.iter ≤ s.iter) →
      ∀ p, Event.plannerInvoked p ∈ (loopRun o m fuel s).1.events →
        s.iter < p.iter → ∀ q ∈ s.historyQuery, q ∈ p.prevQueries := by
  intro fuel
  induction fuel with
  | zero =>
    intro s hsi p hp hgt
    have := hsi p (by simpa [loopRun] using hp)
    omega
  | succ n ih =>
    intro s hsi p hp hgt q hq
    obtain ⟨bl, hev, hit, hbo, hpp, _, _, hh1, hh2⟩ := stepOnce_spec o m s
    rcases hout : stepOnce o m s with s2 | s2 | s2 <;>
      rw [hout] at hev hit hh1 hh2 <;> simp only [stepState] at hev hit hh1 hh2
    · simp only [loopRun] at hp
      rw [hout] at hp
      dsimp only at hp
      have hsi2 : ∀ p2, Event.plannerInvoked p2 ∈ s2.events → p2.iter ≤ s2.iter := by
        intro p2 hp2
        rw [hev] at hp2
        rcases List.mem_append.mp hp2 with h | h
        · have := hsi p2 h
          omega
        · rw [hpp p2 h, hit]
      by_cases hgt2 : s2.iter < p.iter
      · exact ih s2 hsi2 p hp hgt2 q (hh2 q hq)
      · obtain ⟨rest2, hev2, hpl2, _⟩ := loopRun_events_mono o m n s2
        rw [hev2] at hp
        rcases List.mem_append.mp hp with h | h
        · rw [hev] at h
          rcases List.mem_append.mp h with h | h
          · have := hsi p h
            omega
          · rw [hpp p h]
            exact hq
        · have := hpl2 p h
          omega
    · simp only [loopRun] at hp
      rw [hout] at hp
      dsimp only at hp
      rw [hev] at hp
      rcases List.mem_append.mp hp with h | h
      · have := hsi p h
        omega
      · rw [hpp p h]
        exact hq
    · simp only [loopRun] at hp
      rw [hout] at hp
      dsimp only at hp
      rw [hev] at hp
      rcases List.mem_append.mp hp with h | h
      · have := hsi p h
        omega
      · rw [hpp p h]
        exact hq

/-- Queries accepted by the planner at an earlier iteration appear in the
previous-queries section of every later planner prompt of the run. -/
theorem loopRun_accepted_in_prompts (o : Oracle) (m : ℕ) :
    ∀ fuel s i qs, s.iter < i → o.planner i = .ok qs →
      (∀ p2, Event.plannerInvoked p2 ∈ s.events → p2.iter ≤ s.iter) →
      ∀ p, Event.plannerInvoked p ∈ (loopRun o m fuel s).1.events → i < p.iter →
        ∀ q ∈ qs, q ∈ p.prevQueries := by
  intro fuel
  induction fuel with
  | zero =>
    intro s i qs hlt hpl hsi p hp hgt q hq
    have := hsi p (by simpa [loopRun] using hp)
    omega
  | succ n ih =>
    intro s i qs hlt hpl hsi p hp hgt q hq
    obtain ⟨bl, hev, hit, hbo, hpp, _, _, hh1, hh2⟩ := stepOnce_spec o m s
    rcases hout : stepOnce o m s with s2 | s2 | s2 <;>
      rw [hout] at hev hit hh1 hh2 <;> simp only [stepState] at hev hit hh1 hh2
    · simp only [loopRun] at hp
      rw [hout] at hp
      dsimp only at hp
      have hsi2 : ∀ p2, Event.plannerInvoked p2 ∈ s2.events → p2.iter ≤ s2.iter := by
        intro p2 hp2
        rw [hev] at hp2
        rcases List.mem_append.mp hp2 with h | h
        · have := hsi p2 h
          omega
        · rw [hpp p2 h, hit]
      by_cases hcase : i = s.iter + 1
      · subst hcase
        have hqs : qs ≠ [] := by
          intro h0
          rw [h0] at hq
          cases hq
        have hext := hh1 qs hpl hqs
        have hq2 : q ∈ s2.historyQuery := by
          rw [hext]
          exact List.mem_append.mpr (Or.inr hq)
        have := loopRun_prompts_include o m n s2 hsi2 p hp (by omega) q hq2
        exact this
      · refine ih s2 i qs ?_ hpl hsi2 p hp hgt q hq
        omega
    · simp only [loopRun] at hp
      rw [hout] at hp
      dsimp only at hp
      rw [hev] at hp
      rcases List.mem_append.mp hp with h | h
      · have := hsi p h
        omega
      · have := hpp p h
        rw [this] at hgt
        simp at hgt
        omega
    · simp only [loopRun] at hp
      rw [hout] at hp
      dsimp only at hp
      rw [hev] at hp
      rcases List.mem_append.mp hp with h | h
      · have := hsi p h
        omega
      · have := hpp p h
        rw [this] at hgt
        simp at hgt
        omega

/-- Decomposition of the full run trace: the loop events followed by the
terminal events; the report call appears exactly when the loop did not
exit on an internal error. -/
theorem deepResearch_events (task : String) (m : ℕ) (o : Oracle) :
    TraceInv (loopRun o m m (initState task)).1 ∧
    ((loopRun o m m (initState task)).2 = .err ∧
        (deepResearch task m o).2 =
          (loopRun o m m (initState task)).1.events ++ [Event.browserClosed] ∧
        (deepResearch task m o).1 = ("", none) ∨
      (loopRun o m m (initState task)).2 ≠ .err ∧
        (deepResearch task m o).2 =
          (loopRun o m m (initState task)).1.events ++
            [Event.synthInvoked ⟨(loopRun o m m (initState task)).1.taskVar,
              (loopRun o m m (initState task)).1.historyInfos⟩, Event.browserClosed]) := by
  refine ⟨traceInv_loopRun o m m (initState task) (traceInv_init task), ?_⟩
  rcases hek : (loopRun o m m (initState task)).2 with _ | _ | _
  · refine Or.inr ⟨by simp [hek], ?_⟩
    simp only [deepResearch, hek]
    rcases o.report with _ | _ | c <;> simp
  · refine Or.inr ⟨by simp [hek], ?_⟩
    simp only [deepResearch, hek]
    rcases o.report with _ | _ | c <;> simp
  · refine Or.inl ⟨rfl, ?_, ?_⟩ <;> simp [deepResearch, hek]

/-- The loop itself never invokes the report call. -/
theorem synthCount_loop_zero (s : LoopState) (hinv : TraceInv s) :
    synthCount s.events = 0 := by
  rw [synthCount, List.countP_eq_zero]
  intro e he hpred
  rcases e with p | ⟨i2, j⟩ | ⟨i2, j, q⟩ | ⟨i2, j⟩ | ⟨i2, rp2⟩ | rp2 | _ <;>
    simp at hpred
  rcases hinv.tags _ he with ⟨t, ht, _⟩
  simp [evTag] at ht

/-- Terminal events never match the dispatch predicate. -/
theorem countP_runPred_terminal (i : ℕ) (n : String) (term : List Event)
    (h : ∀ e ∈ term, e = Event.browserClosed ∨ ∃ rp, e = Event.synthInvoked rp) :
    term.countP (runPred i n) = 0 := by
  rw [List.countP_eq_zero]
  intro e he hpred
  rcases h e he with rfl | ⟨rp, rfl⟩ <;> simp [runPred] at hpred

/-- C1: visited-link reservation.  A URL-shaped candidate whose
normalized form is already visited is excluded from the dispatch list
built before the agent batch; every accepted URL-shaped candidate has its
normalized form reserved in the visited set the batch construction runs
under; among the dispatch list at most one entry is URL-shaped with any
given normalized form; and over a whole run, at most one agent dispatch
per iteration carries a query with any given normalized URL. -/
theorem C1_visited_link_reservation :
    (∀ (visited tasks : List String) (q n : String),
      (isUrlQuery q = true → normalize_url q ∈ visited →
        q ∉ (filterQueryTasks visited tasks).1) ∧
      (q ∈ (filterQueryTasks visited tasks).1 → isUrlQuery q = true →
        normalize_url q ∈ (filterQueryTasks visited tasks).2) ∧
      ((filterQueryTasks visited tasks).1.countP
          (fun t => isUrlQuery t && (normalize_url t == n)) ≤ 1)) ∧
    (∀ (task : String) (m : ℕ) (o : Oracle) (i : ℕ) (n : String),
      ((deepResearch task m o).2).countP (runPred i n) ≤ 1) := by
  constructor
  · intro visited tasks q n
    exact ⟨fun hu hv => filterQueryTasks_excludes tasks visited q hu hv,
      fun hm hu => filterQueryTasks_reserves tasks visited q hm hu,
      (filterQueryTasks_count n tasks visited).2⟩
  · intro task m o i n
    obtain ⟨hinv, hdec⟩ := deepResearch_events task m o
    have hloop := hinv.runsOnce i n
    rcases hdec with ⟨_, hev, _⟩ | ⟨_, hev⟩ <;> rw [hev, List.countP_append]
    · have hz : List.countP (runPred i n) [Event.browserClosed] = 0 := by
        simp [runPred]
      omega
    · have hz : ∀ rp : ReportPrompt, List.countP (runPred i n)
          [Event.synthInvoked rp, Event.browserClosed] = 0 := by
        intro rp
        simp [runPred]
      rw [hz]
      omega

/-- Witness for C1 at a concrete filter input and a concrete run. -/
theorem C1_visited_link_reservation_witness :
    (isUrlQuery "http://a/b?x" = true ∧
      normalize_url "http://a/b?x" ∈ ["http://a/b"] ∧
      "http://a/b?x" ∉ (filterQueryTasks ["http://a/b"] ["http://a/b?x", "c"]).1) ∧
    ("c" ∈ (filterQueryTasks ["http://a/b"] ["http://a/b?x", "c"]).1 ∧
      ((deepResearch "T" 10 oracleC10).2).countP (runPred 1 "http://a/x") ≤ 1) := by
  refine ⟨⟨by decide, by decide, ?_⟩, by decide, ?_⟩
  · exact (C1_visited_link_reservation.1 ["http://a/b"] ["http://a/b?x", "c"]
      "http://a/b?x" "").1 (by decide) (by decide)
  · exact C1_visited_link_reservation.2 "T" 10 oracleC10 1 "http://a/x"

/-- C2 counterexample: when the first planner response parses but lacks
the expected keys, the indexing error escapes to the outer handler, the
run returns the empty report, and the Report Synthesizer is never
invoked, contradicting the claim that it runs exactly once on an
internal-error exit. -/
theorem C2_synthesizer_counterexample :
    (loopRun oracleC2 10 10 (initState "T")).2 = .err ∧
    synthCount (deepResearch "T" 10 oracleC2).2 = 0 ∧
    synthCount (deepResearch "T" 10 oracleC2).2 ≠ 1 ∧
    (deepResearch "T" 10 oracleC2).1 = ("", none) := by
  exact ⟨by decide, by decide, by decide, by decide⟩

/-- C2 amended: the Report Synthesizer runs exactly once when the loop
exits through the iteration cap or any break (empty queries, all
duplicates, planner returning None, or a JSON decode failure), and zero
times when an internal error aborts the loop; the top-level call is a
total function that returns an empty report text and no path on the
internal-error exit as well as when the final report call raises or
returns None. -/
theorem C2_synthesizer_amended (task : String) (m : ℕ) (o : Oracle) :
    ((loopRun o m m (initState task)).2 ≠ .err →
      synthCount (deepResearch task m o).2 = 1) ∧
    ((loopRun o m m (initState task)).2 = .err →
      synthCount (deepResearch task m o).2 = 0 ∧
      (deepResearch task m o).1 = ("", none)) ∧
    (o.report = .raised ∨ o.report = .retNone →
      (deepResearch task m o).1 = ("", none)) := by
  obtain ⟨hinv, hdec⟩ := deepResearch_events task m o
  have h0 := synthCount_loop_zero _ hinv
  refine ⟨?_, ?_, ?_⟩
  · intro hne
    rcases hdec with ⟨hek, _, _⟩ | ⟨_, hev⟩
    · exact absurd hek hne
    · rw [hev]
      rw [synthCount] at h0 ⊢
      rw [List.countP_append, h0]
      rfl
  · intro hek
    rcases hdec with ⟨_, hev, hres⟩ | ⟨hne, _⟩
    · refine ⟨?_, hres⟩
      rw [hev]
      rw [synthCount] at h0 ⊢
      rw [List.countP_append, h0]
      rfl
    · exact absurd hek hne
  · rcases hek2 : (loopRun o m m (initState task)).2 with _ | _ | _ <;>
      rintro (h | h) <;>
      simp [deepResearch, hek2, h]

/-- Witness for C2 amended: a run that breaks at the first planner call
still synthesizes exactly once. -/
theorem C2_synthesizer_amended_witness :
    ((loopRun oracleC2W 10 10 (initState "T")).2 ≠ .err ∧
      synthCount (deepResearch "T" 10 oracleC2W).2 = 1) ∧
    (oracleC2W.report = .raised ∨ oracleC2W.report = .retNone) ∧
    (deepResearch "T" 10 oracleC2W).1 = ("", none) := by
  refine ⟨⟨by decide, (C2_synthesizer_amended "T" 10 oracleC2W).1 (by decide)⟩,
    ?_, (C2_synthesizer_amended "T" 10 oracleC2W).2.2 ?_⟩ <;>
  · left
    decide

/-- C6 counterexample: iteration 2 creates a browsing context for its
only candidate, then stops on the all-duplicates break; that context is
never closed, contradicting the claim that every context opened during a
run is closed exactly once. -/
theorem C6_context_counterexample :
    Event.contextCreated 2 0 ∈ (deepResearch "T" 10 oracleC6).2 ∧
    Event.contextClosed 2 0 ∉ (deepResearch "T" 10 oracleC6).2 ∧
    Event.contextClosed 1 0 ∈ (deepResearch "T" 10 oracleC6).2 := by
  exact ⟨by decide, by decide, by decide⟩

/-- C6 amended: the run trace is ordered by iteration and phase (so every
close of an iteration follows its dispatches and precedes the context
creations of later iterations); each context is created at most once and
closed at most once; a context is closed only if it was created; in an
iteration that dispatched its batch, every context created in that
iteration is closed (hence exactly once); but in an iteration with no
dispatch — the all-duplicates break — no context of that iteration is
ever closed, so the contexts it created leak until the terminal browser
close. -/
theorem C6_context_lifecycle_amended (task : String) (m : ℕ) (o : Oracle) :
    ((deepResearch task m o).2).Pairwise tagLe ∧
    (∀ i j, ((deepResearch task m o).2).countP
      (fun e => e == Event.contextCreated i j) ≤ 1) ∧
    (∀ i j, ((deepResearch task m o).2).countP
      (fun e => e == Event.contextClosed i j) ≤ 1) ∧
    (∀ i j, Event.contextClosed i j ∈ (deepResearch task m o).2 →
      Event.contextCreated i j ∈ (deepResearch task m o).2) ∧
    (∀ i j, (∃ j2 q, Event.agentRun i j2 q ∈ (deepResearch task m o).2) →
      Event.contextCreated i j ∈ (deepResearch task m o).2 →
      Event.contextClosed i j ∈ (deepResearch task m o).2) ∧
    (∀ i j, (∀ j2 q, Event.agentRun i j2 q ∉ (deepResearch task m o).2) →
      Event.contextClosed i j ∉ (deepResearch task m o).2) := by
  obtain ⟨hinv, hdec⟩ := deepResearch_events task m o
  have hterm : ∃ term, (deepResearch task m o).2 =
      (loopRun o m m (initState task)).1.events ++ term ∧
      ∀ e ∈ term, e = Event.browserClosed ∨ ∃ rp, e = Event.synthInvoked rp := by
    rcases hdec with ⟨_, hev, _⟩ | ⟨_, hev⟩
    · exact ⟨_, hev, by intro e he; simp at he; left; exact he⟩
    · refine ⟨_, hev, ?_⟩
      intro e he
      rcases List.mem_cons.mp he with rfl | he2
      · exact Or.inr ⟨_, rfl⟩
      · rcases List.mem_singleton.mp he2 with rfl
        exact Or.inl rfl
  obtain ⟨term, hev, hshape⟩ := hterm
  have htermNoCtx : ∀ i j, Event.contextCreated i j ∉ term ∧
      Event.contextClosed i j ∉ term ∧ (∀ q, Event.agentRun i j q ∉ term) := by
    intro i j
    refine ⟨?_, ?_, ?_⟩
    · intro h
      rcases hshape _ h with h2 | ⟨rp, h2⟩ <;> cases h2
    · intro h
      rcases hshape _ h with h2 | ⟨rp, h2⟩ <;> cases h2
    · intro q h
      rcases hshape _ h with h2 | ⟨rp, h2⟩ <;> cases h2
  rw [hev]
  refine ⟨?_, ?_, ?_, ?_, ?_, ?_⟩
  · refine List.pairwise_append.mpr ⟨hinv.sorted, ?_, ?_⟩
    · refine pairwiseOfForall _ ?_
      intro a ha b hb
      have hb2 : evTag b = none := by
        rcases hshape _ hb with rfl | ⟨rp, rfl⟩ <;> rfl
      unfold tagLe
      rw [hb2]
      rcases he : evTag a with _ | t <;> exact trivial
    · intro a ha b hb
      have hb2 : evTag b = none := by
        rcases hshape _ hb with rfl | ⟨rp, rfl⟩ <;> rfl
      unfold tagLe
      rw [hb2]
      rcases he : evTag a with _ | t <;> exact trivial
  · intro i j
    rw [List.countP_append]
    have hz : term.countP (fun e => e == Event.contextCreated i j) = 0 := by
      rw [List.countP_eq_zero]
      intro e he hpred
      have he2 : e = Event.contextCreated i j := eq_of_beq hpred
      subst he2
      exact (htermNoCtx i j).1 he
    rw [hz]
    have := hinv.createdOnce i j
    omega
  · intro i j
    rw [List.countP_append]
    have hz : term.countP (fun e => e == Event.contextClosed i j) = 0 := by
      rw [List.countP_eq_zero]
      intro e he hpred
      have he2 : e = Event.contextClosed i j := eq_of_beq hpred
      subst he2
      exact (htermNoCtx i j).2.1 he
    rw [hz]
    have := hinv.closedOnce i j
    omega
  · intro i j h
    rcases List.mem_append.mp h with h | h
    · exact List.mem_append.mpr (Or.inl (hinv.closedSub i j h))
    · exact absurd h (htermNoCtx i j).2.1
  · intro i j hrun hcr
    rcases hrun with ⟨j2, q, hq⟩
    rcases List.mem_append.mp hq with hq | hq
    swap
    · exact absurd hq ((htermNoCtx i j2).2.2 q)
    rcases List.mem_append.mp hcr with hcr | hcr
    swap
    · exact absurd hcr (htermNoCtx i j).1
    exact List.mem_append.mpr (Or.inl (hinv.closedAll i ⟨j2, q, hq⟩ j hcr))
  · intro i j hno h
    rcases List.mem_append.mp h with h | h
    · refine hinv.noRunNoClose i ?_ j h
      intro j2 q hq
      exact hno j2 q (List.mem_append.mpr (Or.inl hq))
    · exact absurd h (htermNoCtx i j).2.1

/-- Witness for C6 amended: in a dispatching iteration the created
context is closed. -/
theorem C6_context_lifecycle_amended_witness :
    ((∃ j2 q, Event.agentRun 1 j2 q ∈ (deepResearch "T" 10 oracleC6W).2) ∧
      Event.contextCreated 1 0 ∈ (deepResearch "T" 10 oracleC6W).2 ∧
      Event.contextClosed 1 0 ∈ (deepResearch "T" 10 oracleC6W).2) ∧
    ((deepResearch "T" 10 oracleC6W).2).countP
      (fun e => e == Event.contextClosed 1 0) ≤ 1 := by
  refine ⟨⟨⟨0, "w1", by decide⟩, by decide, ?_⟩, ?_⟩
  · exact (C6_context_lifecycle_amended "T" 10 oracleC6W).2.2.2.2.1 1 0
      ⟨0, "w1", by decide⟩ (by decide)
  · exact (C6_context_lifecycle_amended "T" 10 oracleC6W).2.2.1 1 0

/-- C9: failure of the task-anchor invariant at the failing input.  With
task T and first planner query q1, the filtering loop rebinds the task
variable, so the recorder prompt of iteration 1, the planner prompt of
iteration 2 and the final report prompt all carry q1 — not the
caller-supplied task T — as the User Instruction. -/
theorem C9_task_anchor_failing_input :
    (Event.recorderInvoked 1 ⟨"q1", [], some "r1"⟩ ∈
        (deepResearch "T" 10 oracleC9).2 ∧
      ("q1" : String) ≠ "T") ∧
    (Event.plannerInvoked ⟨2, 10, "q1", ["q1"], []⟩ ∈
      (deepResearch "T" 10 oracleC9).2) ∧
    (Event.synthInvoked ⟨"q1", []⟩ ∈ (deepResearch "T" 10 oracleC9).2 ∧
      synthCount (deepResearch "T" 10 oracleC9).2 = 1 ∧
      (ReportPrompt.mk "q1" []).userInstruction ≠ "T") := by
  exact ⟨⟨by decide, by decide⟩, by decide, by decide, by decide, by decide⟩

/-- C10: every planner-proposed query of an accepted (non-empty) batch is
appended to the query history before duplicate filtering and regardless
of it, and therefore appears in the previous-queries section of every
later planner prompt of the run. -/
theorem C10_history_query_complete :
    (∀ (o : Oracle) (m : ℕ) (s : LoopState) (qs : List String),
      o.planner (s.iter + 1) = .ok qs → qs ≠ [] →
      (stepState (stepOnce o m s)).historyQuery = s.historyQuery ++ qs) ∧
    (∀ (task : String) (m : ℕ) (o : Oracle) (i : ℕ) (qs : List String)
      (q : String) (p : QueryPrompt),
      o.planner i = .ok qs → q ∈ qs → 1 ≤ i →
      Event.plannerInvoked p ∈ (deepResearch task m o).2 → i < p.iter →
      q ∈ p.prevQueries) := by
  constructor
  · intro o m s qs hpl hne
    obtain ⟨bl, _, _, _, _, _, _, hh1, _⟩ := stepOnce_spec o m s
    exact hh1 qs hpl hne
  · intro task m o i qs q p hpl hq hi hp hlt
    obtain ⟨hinv, hdec⟩ := deepResearch_events task m o
    have hploop : Event.plannerInvoked p ∈ (loopRun o m m (initState task)).1.events := by
      rcases hdec with ⟨_, hev, _⟩ | ⟨_, hev⟩ <;> rw [hev] at hp <;>
          rcases List.mem_append.mp hp with h | h
      · exact h
      · simp at h
      · exact h
      · simp at h
    refine loopRun_accepted_in_prompts o m m (initState task) i qs ?_ hpl ?_ p
      hploop hlt q hq
    · simpa [initState] using hi
    · intro p2 hp2
      simp [initState] at hp2

/-- Witness for C10: the duplicate query of iteration 1, excluded from
dispatch, still appears in the iteration 2 planner prompt. -/
theorem C10_history_query_complete_witness :
    (oracleC10.planner 1 = .ok ["http://a/x", "http://a/x?y"] ∧
      "http://a/x?y" ∉ (filterQueryTasks [] ["http://a/x", "http://a/x?y"]).1 ∧
      Event.plannerInvoked ⟨2, 10, "http://a/x?y",
        ["http://a/x", "http://a/x?y"], []⟩ ∈ (deepResearch "T" 10 oracleC10).2) ∧
    "http://a/x?y" ∈ (QueryPrompt.mk 2 10 "http://a/x?y"
      ["http://a/x", "http://a/x?y"] []).prevQueries := by
  refine ⟨⟨by decide, by decide, by decide⟩, ?_⟩
  exact C10_history_query_complete.2 "T" 10 oracleC10 1
    ["http://a/x", "http://a/x?y"] "http://a/x?y"
    ⟨2, 10, "http://a/x?y", ["http://a/x", "http://a/x?y"], []⟩
    (by decide) (by decide) (by decide) (by decide) (by decide)

/-- C5 counterexample: with a non-empty plan in iteration 1 and an empty
plan in iteration 2, only one iteration of dispatch/record occurs — the
empty-queries break fires before iteration 2 dispatches or records — so
the claimed two dispatch/record iterations are wrong, though the
synthesizer still runs once. -/
theorem C5_empty_queries_counterexample :
    oracleC5.planner 1 = .ok ["q1"] ∧ oracleC5.planner 2 = .ok [] ∧
    recorderCount (deepResearch "T" 10 oracleC5).2 = 1 ∧
    recorderCount (deepResearch "T" 10 oracleC5).2 ≠ 2 ∧
    agentRunCount 2 (deepResearch "T" 10 oracleC5).2 = 0 ∧
    agentRunCount 1 (deepResearch "T" 10 oracleC5).2 = 1 := by
  decide

/-- C5 amended: an empty planner query list halts the iteration
immediately after the planner event — no context creation, no dispatch,
no recording happens in that iteration — and in the canonical scenario
(non-empty plan in iteration 1, empty plan in iteration 2) the run
performs exactly two planner calls, one dispatch/record iteration, no
iteration 2 dispatch, exits through the break, and synthesizes once. -/
theorem C5_empty_queries_amended :
    (∀ (o : Oracle) (m : ℕ) (s : LoopState),
      o.planner (s.iter + 1) = .ok [] →
      stepOnce o m s = .halt
        { s with
          iter := s.iter + 1,
          events := s.events ++ [Event.plannerInvoked
            ⟨s.iter + 1, m, s.taskVar, s.historyQuery, s.historyInfos⟩] }) ∧
    (plannerCount (deepResearch "T" 10 oracleC5).2 = 2 ∧
      recorderCount (deepResearch "T" 10 oracleC5).2 = 1 ∧
      agentRunCount 1 (deepResearch "T" 10 oracleC5).2 = 1 ∧
      agentRunCount 2 (deepResearch "T" 10 oracleC5).2 = 0 ∧
      synthCount (deepResearch "T" 10 oracleC5).2 = 1 ∧
      (loopRun oracleC5 10 10 (initState "T")).2 = .brk) := by
  refine ⟨?_, by decide⟩
  intro o m s h
  simp [stepOnce, h]

/-- Witness for C5 amended at a concrete state. -/
theorem C5_empty_queries_amended_witness :
    oracleC5.planner (1 + 1) = .ok [] ∧
    stepOnce oracleC5 10 ⟨1, "T", [], [], [], none, []⟩ =
      .halt ⟨2, "T", [], [], [], none,
        [Event.plannerInvoked ⟨2, 10, "T", [], []⟩]⟩ := by
  refine ⟨by decide, ?_⟩
  have h := C5_empty_queries_amended.1 oracleC5 10
    ⟨1, "T", [], [], [], none, []⟩ (by decide)
  simpa using h

/-- C8 counterexample: with two dispatched queries q1 and q2 whose
transcripts are r1 and r2, the single recorder prompt of the iteration
carries only the last transcript r2 — the transcript r1 of the first
dispatched query is absent — and its task slot holds the rebound query
q2, not the caller task; so the prompt does not contain the transcripts
of all queries of the batch. -/
theorem C8_recorder_input_counterexample :
    Event.agentRun 1 0 "q1" ∈ (deepResearch "T" 10 oracleC8).2 ∧
    Event.agentRun 1 1 "q2" ∈ (deepResearch "T" 10 oracleC8).2 ∧
    oracleC8.agent 1 0 = some (some "r1") ∧
    Event.recorderInvoked 1 ⟨"q2", [], some "r2"⟩ ∈
      (deepResearch "T" 10 oracleC8).2 ∧
    recorderCount (deepResearch "T" 10 oracleC8).2 = 1 ∧
    (RecordPrompt.mk "q2" [] (some "r2")).currentResults ≠ some "r1" ∧
    (RecordPrompt.mk "q2" [] (some "r2")).userInstruction ≠ "T" := by
  decide

/-- C8 amended: every recorder prompt emitted by an iteration carries the
rebound task variable (the last planner query of the batch), the prior
fact ledger, and exactly the last non-None transcript of the batch as
its current result — a single transcript, not the transcripts of all
dispatched queries. -/
theorem C8_recorder_input_amended (o : Oracle) (m : ℕ) (s : LoopState)
    (rp : RecordPrompt)
    (h : Event.recorderInvoked (s.iter + 1) rp ∈
      (stepState (stepOnce o m s)).events)
    (hnew : Event.recorderInvoked (s.iter + 1) rp ∉ s.events) :
    ∃ qs r, o.planner (s.iter + 1) = .ok qs ∧ qs ≠ [] ∧
      (filterQueryTasks s.visited qs).1 ≠ [] ∧
      batchLastResult o (s.iter + 1)
        (filterQueryTasks s.visited qs).1.length s.lastQR = some r ∧
      rp = ⟨qs.getLastD s.taskVar, s.historyInfos, r⟩ := by
  obtain ⟨bl, hev, _, _, _, hrec, _, _, _⟩ := stepOnce_spec o m s
  rw [hev] at h
  rcases List.mem_append.mp h with h | h
  · exact absurd h hnew
  · exact hrec rp h

/-- Witness for C8 amended at the concrete two-query iteration. -/
theorem C8_recorder_input_amended_witness :
    (Event.recorderInvoked ((initState "T").iter + 1) ⟨"q2", [], some "r2"⟩ ∈
      (stepState (stepOnce oracleC8 10 (initState "T"))).events) ∧
    ∃ qs r, oracleC8.planner ((initState "T").iter + 1) = .ok qs ∧ qs ≠ [] ∧
      (filterQueryTasks (initState "T").visited qs).1 ≠ [] ∧
      batchLastResult oracleC8 ((initState "T").iter + 1)
        (filterQueryTasks (initState "T").visited qs).1.length
        (initState "T").lastQR = some r ∧
      (⟨"q2", [], some "r2"⟩ : RecordPrompt) =
        ⟨qs.getLastD (initState "T").taskVar, (initState "T").historyInfos, r⟩ := by
  exact ⟨by decide, C8_recorder_input_amended oracleC8 10 (initState "T")
    ⟨"q2", [], some "r2"⟩ (by decide) (by decide)⟩

/-!  Character-class facts used by the round-trip analysis of the
normalizer.  Char.toLower only changes ASCII upper-case letters, so the
scheme produced by splitScheme consists of lower-case-fixed scheme
characters; the lemmas below make this precise. -/

/-- toNat of Char.ofNat at a valid code point. -/
theorem charToNatOfNat (n : Nat) (h : n.isValidChar) : (Char.ofNat n).toNat = n := by
  simp [Char.ofNat, h, Char.ofNatAux, Char.toNat, UInt32.toNat, BitVec.ofNatLt]

/-- Upper-case test as a statement about the code point. -/
theorem isUpperIff (c : Char) : c.isUpper = true ↔ 65 ≤ c.toNat ∧ c.toNat ≤ 90 := by
  simp [Char.isUpper, Char.toNat, UInt32.le_def, BitVec.le_def, UInt32.toNat]

/-- Lower-case test as a statement about the code point. -/
theorem isLowerIff (c : Char) : c.isLower = true ↔ 97 ≤ c.toNat ∧ c.toNat ≤ 122 := by
  simp [Char.isLower, Char.toNat, UInt32.le_def, BitVec.le_def, UInt32.toNat]

/-- Digit test as a statement about the code point. -/
theorem isDigitIff (c : Char) : c.isDigit = true ↔ 48 ≤ c.toNat ∧ c.toNat ≤ 57 := by
  simp [Char.isDigit, Char.toNat, UInt32.le_def, BitVec.le_def, UInt32.toNat]

/-- Characters are equal when their code points are. -/
theorem charEqOfToNat (c d : Char) (h : c.toNat = d.toNat) : c = d := by
  apply Char.ext
  apply UInt32.toNat.inj
  exact h

/-- toLower written through the code point. -/
theorem toLowerEq (c : Char) :
    c.toLower = if 65 ≤ c.toNat ∧ c.toNat ≤ 90 then Char.ofNat (c.toNat + 32) else c := by
  simp [Char.toLower, ge_iff_le]

/-- Code-point bounds of a scheme character. -/
theorem schemeCharBounds (c : Char) (h : isSchemeChar c = true) :
    (65 ≤ c.toNat ∧ c.toNat ≤ 90) ∨ (97 ≤ c.toNat ∧ c.toNat ≤ 122) ∨
      (48 ≤ c.toNat ∧ c.toNat ≤ 57) ∨ c.toNat = 43 ∨ c.toNat = 45 ∨ c.toNat = 46 := by
  have h2 : c.isAlpha = true ∨ c.isDigit = true ∨ c = '+' ∨ c = '-' ∨ c = '.' := by
    simp only [isSchemeChar, Bool.or_eq_true, beq_iff_eq] at h
    tauto
  rcases h2 with h | h | rfl | rfl | rfl
  · have h3 : c.isUpper = true ∨ c.isLower = true := by
      simp only [Char.isAlpha, Bool.or_eq_true] at h
      exact h
    rcases h3 with h | h
    · exact Or.inl ((isUpperIff c).mp h)
    · exact Or.inr (Or.inl ((isLowerIff c).mp h))
  · exact Or.inr (Or.inr (Or.inl ((isDigitIff c).mp h)))
  · exact Or.inr (Or.inr (Or.inr (Or.inl (by decide))))
  · exact Or.inr (Or.inr (Or.inr (Or.inr (Or.inl (by decide)))))
  · exact Or.inr (Or.inr (Or.inr (Or.inr (Or.inr (by decide)))))

/-- The facts needed about toLower on a scheme character: the result is
again a scheme character, is a fixed point of toLower, is an ASCII letter
when the input is, is not an unsafe or control character, and is not one
of the structural delimiters of a URL. -/
theorem schemeCharToLower (c : Char) (h : isSchemeChar c = true) :
    isSchemeChar c.toLower = true ∧ c.toLower.toLower = c.toLower ∧
      (c.isAlpha = true → c.toLower.isAlpha = true) ∧
      (97 ≤ c.toLower.toNat ∧ c.toLower.toNat ≤ 122 ∨
        48 ≤ c.toLower.toNat ∧ c.toLower.toNat ≤ 57 ∨
        c.toLower.toNat = 43 ∨ c.toLower.toNat = 45 ∨ c.toLower.toNat = 46) := by
  by_cases hu : 65 ≤ c.toNat ∧ c.toNat ≤ 90
  · have hval : (c.toNat + 32).isValidChar := Or.inl (by omega)
    have ht : c.toLower.toNat = c.toNat + 32 := by
      rw [toLowerEq, if_pos hu, charToNatOfNat _ hval]
    have hlow : 97 ≤ c.toLower.toNat ∧ c.toLower.toNat ≤ 122 := by omega
    have hlower : c.toLower.isLower = true := (isLowerIff _).mpr hlow
    have halpha : c.toLower.isAlpha = true := by
      simp [Char.isAlpha, hlower]
    refine ⟨by simp [isSchemeChar, halpha], ?_, fun _ => halpha, Or.inl hlow⟩
    rw [toLowerEq c.toLower, if_neg (by omega)]
  · have hfix : c.toLower = c := by rw [toLowerEq, if_neg hu]
    rw [hfix]
    have hb := schemeCharBounds c h
    refine ⟨h, by rw [hfix], fun ha => ha, ?_⟩
    rcases hb with h1 | h1 | h1 | h1 | h1 | h1
    · exact absurd h1 hu
    · exact Or.inl h1
    · exact Or.inr (Or.inl h1)
    · exact Or.inr (Or.inr (Or.inl h1))
    · exact Or.inr (Or.inr (Or.inr (Or.inl h1)))
    · exact Or.inr (Or.inr (Or.inr (Or.inr h1)))

/-- takeWhile over an append whose first part satisfies the predicate. -/
theorem takeWhileAppendAll (p : Char → Bool) (xs ys : List Char)
    (h : ∀ x ∈ xs, p x = true) :
    (xs ++ ys).takeWhile p = xs ++ ys.takeWhile p := by
  induction xs with
  | nil => simp
  | cons a l ih =>
      have ha : p a = true := h a (List.mem_cons_self a l)
      simp [List.takeWhile_cons, ha, ih (fun x hx => h x (List.mem_cons_of_mem a hx))]

/-- dropWhile over an append whose first part satisfies the predicate. -/
theorem dropWhileAppendAll (p : Char → Bool) (xs ys : List Char)
    (h : ∀ x ∈ xs, p x = true) :
    (xs ++ ys).dropWhile p = ys.dropWhile p := by
  induction xs with
  | nil => simp
  | cons a l ih =>
      have ha : p a = true := h a (List.mem_cons_self a l)
      simp [List.dropWhile_cons, ha, ih (fun x hx => h x (List.mem_cons_of_mem a hx))]

/-- The head surviving dropWhile fails the predicate. -/
theorem dropWhileHeadNot (p : Char → Bool) (l : List Char) (y : Char) (ys : List Char)
    (h : l.dropWhile p = y :: ys) : p y = false := by
  induction l with
  | nil => cases h
  | cons a t ih =>
      by_cases hv : p a = true
      · rw [List.dropWhile_cons, if_pos hv] at h
        exact ih h
      · rw [List.dropWhile_cons, if_neg hv] at h
        injection h with h1 _
        subst h1
        exact Bool.not_eq_true _ ▸ hv

/-- Sanitizing is the identity on a list with a safe head and no unsafe
characters. -/
theorem sanitizeNoop (l : List Char)
    (h1 : ∀ c ∈ l, isUnsafeChar c = false)
    (h2 : l = [] ∨ isC0OrSpace (l.headD ' ') = false) :
    sanitizeUrl l = l := by
  unfold sanitizeUrl
  have hd : l.dropWhile isC0OrSpace = l := by
    cases l with
    | nil => rfl
    | cons a t =>
        rcases h2 with h2 | h2
        · cases h2
        · simp only [List.headD_cons] at h2
          rw [List.dropWhile_cons, if_neg (by simp [h2])]
  rw [hd, List.filter_eq_self.mpr]
  intro c hc
  simp [h1 c hc]

/-- Scheme detection on a rebuilt URL: a nonempty lower-fixed scheme whose
head is a letter, followed by a colon, splits back exactly. -/
theorem splitSchemeExact (scheme rest : List Char)
    (hs : scheme ≠ [])
    (hsc : ∀ c ∈ scheme, isSchemeChar c = true ∧ Char.toLower c = c)
    (hsh : (scheme.headD ' ').isAlpha = true) :
    splitScheme (scheme ++ ':' :: rest) = (scheme, rest) := by
  have hne : ∀ c ∈ scheme, (c != ':') = true := by
    intro c hc
    have h1 := (hsc c hc).1
    have : c ≠ ':' := by
      intro h2
      subst h2
      simp [isSchemeChar] at h1
    simp [this]
  have hpre : (scheme ++ ':' :: rest).takeWhile (fun c => c != ':') = scheme := by
    rw [takeWhileAppendAll _ _ _ hne]
    simp [List.takeWhile_cons]
  unfold splitScheme
  rw [hpre]
  have hlen : scheme.length < (scheme ++ ':' :: rest).length := by
    simp only [List.length_append, List.length_cons]
    omega
  have hhead : ((scheme ++ ':' :: rest).headD ' ').isAlpha = true := by
    cases scheme with
    | nil => exact absurd rfl hs
    | cons a t => simpa using hsh
  rw [if_pos ⟨hlen, by cases scheme with | nil => exact absurd rfl hs | cons a t => simp, hhead,
    List.all_eq_true.mpr (fun c hc => (hsc c hc).1)⟩]
  refine Prod.ext ?_ ?_
  · show scheme.map Char.toLower = scheme
    conv_rhs => rw [← List.map_id scheme]
    exact List.map_congr_left (fun c hc => (hsc c hc).2)
  · show (scheme ++ ':' :: rest).drop (scheme.length + 1) = rest
    simp

/-- Netloc split on a rebuilt remainder: a delimiter-free netloc followed
by an empty or delimiter-headed path splits back exactly. -/
theorem splitNetlocExact (netloc path2 : List Char)
    (hn : ∀ c ∈ netloc, isNetlocDelim c = false)
    (hp : path2 = [] ∨ isNetlocDelim (path2.headD ' ') = true) :
    splitNetloc (netloc ++ path2) = (netloc, path2) := by
  have hall : ∀ c ∈ netloc, (!(isNetlocDelim c)) = true := by
    intro c hc
    simp [hn c hc]
  unfold splitNetloc
  rcases hp with rfl | hd
  · rw [List.append_nil, List.takeWhile_eq_self_iff.mpr hall,
      List.dropWhile_eq_nil_iff.mpr hall]
  · cases path2 with
    | nil =>
        rw [List.append_nil, List.takeWhile_eq_self_iff.mpr hall,
          List.dropWhile_eq_nil_iff.mpr hall]
    | cons a t =>
        simp only [List.headD_cons] at hd
        rw [takeWhileAppendAll _ _ _ hall, dropWhileAppendAll _ _ _ hall]
        simp [List.takeWhile_cons, List.dropWhile_cons, hd]

/-- Facts about the output of splitScheme: every scheme character is a
lower-fixed scheme character, a nonempty scheme starts with a letter, and
the remainder is drawn from the input. -/
theorem splitSchemeOut (l : List Char) :
    (∀ c ∈ (splitScheme l).1, isSchemeChar c = true ∧ Char.toLower c = c) ∧
    ((splitScheme l).1 ≠ [] → ((splitScheme l).1.headD ' ').isAlpha = true) ∧
    (∀ c ∈ (splitScheme l).2, c ∈ l) := by
  unfold splitScheme
  by_cases hc : (l.takeWhile (fun c => c != ':')).length < l.length ∧
      0 < (l.takeWhile (fun c => c != ':')).length ∧
      (l.headD ' ').isAlpha = true ∧
      (l.takeWhile (fun c => c != ':')).all isSchemeChar = true
  · rw [if_pos hc]
    obtain ⟨h1, h2, h3, h4⟩ := hc
    refine ⟨?_, ?_, ?_⟩
    · intro c hcm
      rcases List.mem_map.mp hcm with ⟨c0, hc0, rfl⟩
      have hs0 : isSchemeChar c0 = true := List.all_eq_true.mp h4 c0 hc0
      obtain ⟨ha, hb, _, _⟩ := schemeCharToLower c0 hs0
      exact ⟨ha, hb⟩
    · intro hne
      cases hp : l.takeWhile (fun c => c != ':') with
      | nil => rw [hp] at h2; cases h2
      | cons a t =>
          have hpre : a :: t <+: l := by
            rw [← hp]
            exact List.takeWhile_prefix _
          obtain ⟨rest2, hrest⟩ := hpre
          have hal : l.headD ' ' = a := by
            rw [← hrest]
            rfl
          have ha : a.isAlpha = true := by
            rw [hal] at h3
            exact h3
          have hs0 : isSchemeChar a = true := by
            refine List.all_eq_true.mp h4 a ?_
            rw [hp]
            exact List.mem_cons_self a t
          obtain ⟨_, _, hc3, _⟩ := schemeCharToLower a hs0
          simpa using hc3 ha
    · intro c hcm
      exact List.drop_subset _ _ hcm
  · rw [if_neg hc]
    exact ⟨by simp, by simp, fun c hc => hc⟩

/-- Inversion facts for a successful urlsplit: the bracket check passed on
the returned netloc, scheme characters are lower-fixed scheme characters
headed by a letter, netloc characters are free of delimiters and unsafe
bytes, path characters are free of hash, question mark and unsafe bytes,
and with a nonempty netloc the path is empty or slash-headed. -/
theorem urlsplitCoreFacts (l0 : List Char) (r : SplitResult)
    (h : urlsplitCore l0 = some r) :
    netlocBracketsOk r.netloc = true ∧
    (∀ c ∈ r.scheme, isSchemeChar c = true ∧ Char.toLower c = c) ∧
    (r.scheme ≠ [] → (r.scheme.headD ' ').isAlpha = true) ∧
    (∀ c ∈ r.netloc, isNetlocDelim c = false ∧ isUnsafeChar c = false) ∧
    (∀ c ∈ r.path, (c = '#' → False) ∧ (c = '?' → False) ∧ isUnsafeChar c = false) ∧
    (r.netloc ≠ [] → r.path = [] ∨ r.path.headD ' ' = '/') := by
  have hsafe : ∀ c ∈ sanitizeUrl l0, isUnsafeChar c = false := by
    intro c hc
    unfold sanitizeUrl at hc
    have h2 := List.of_mem_filter hc
    simpa using h2
  obtain ⟨hso1, hso2, hso3⟩ := splitSchemeOut (sanitizeUrl l0)
  unfold urlsplitCore at h
  dsimp only at h
  by_cases hsl : List.take 2 (splitScheme (sanitizeUrl l0)).2 = ['/', '/']
  · rw [if_pos hsl] at h
    by_cases hbr : netlocBracketsOk
        (splitNetloc (List.drop 2 (splitScheme (sanitizeUrl l0)).2)).1 = true
    · rw [if_pos hbr] at h
      injection h with h2
      subst h2
      dsimp only [splitNetloc] at hbr ⊢
      refine ⟨hbr, hso1, hso2, ?_, ?_, ?_⟩
      · intro c hc
        have h1 := List.mem_takeWhile_imp hc
        refine ⟨by simpa using h1, ?_⟩
        apply hsafe
        apply hso3
        exact List.drop_subset _ _ ((List.takeWhile_prefix _).subset hc)
      · intro c hc
        have h1 := List.mem_takeWhile_imp hc
        have hc2 := (List.takeWhile_prefix _).subset hc
        have h2 := List.mem_takeWhile_imp hc2
        have hc3 := (List.takeWhile_prefix _).subset hc2
        refine ⟨by simpa using h2, by simpa using h1, ?_⟩
        apply hsafe
        apply hso3
        apply List.drop_subset
        exact (List.dropWhile_suffix _).subset hc3
      · intro hnl
        cases hnr2 : List.dropWhile (fun c => !(isNetlocDelim c))
            (List.drop 2 (splitScheme (sanitizeUrl l0)).2) with
        | nil =>
            left
            rfl
        | cons y ys =>
            have hy : (!(isNetlocDelim y)) = false := dropWhileHeadNot _ _ _ _ hnr2
            have hy2 : isNetlocDelim y = true := by simpa using hy
            have hy3 : y = '/' ∨ y = '?' ∨ y = '#' := by
              simp only [isNetlocDelim, Bool.or_eq_true, beq_iff_eq] at hy2
              tauto
            rcases hy3 with rfl | rfl | rfl
            · right
              simp [List.takeWhile_cons]
            · left
              simp [List.takeWhile_cons]
            · left
              simp [List.takeWhile_cons]
    · rw [if_neg hbr] at h
      cases h
  · rw [if_neg hsl] at h
    dsimp only at h
    rw [if_pos (by decide : netlocBracketsOk ([] : List Char) = true)] at h
    injection h with h2
    subst h2
    dsimp only
    refine ⟨by decide, hso1, hso2, by simp, ?_, fun hnl => absurd rfl hnl⟩
    intro c hc
    have h1 := List.mem_takeWhile_imp hc
    have hc2 := (List.takeWhile_prefix _).subset hc
    have h2 := List.mem_takeWhile_imp hc2
    have hc3 := (List.takeWhile_prefix _).subset hc2
    exact ⟨by simpa using h2, by simpa using h1, hsafe c (hso3 c hc3)⟩

/-- The path part returned by the parameter split draws its characters
from the input path. -/
theorem splitParamsSubset (p : List Char) : ∀ c ∈ (splitParams p).1, c ∈ p := by
  intro c hc
  unfold splitParams at hc
  by_cases h1 : '/' ∈ p
  · rw [if_pos h1] at hc
    by_cases h2 : ';' ∈ (p.reverse.takeWhile (fun c => c != '/')).reverse
    · rw [if_pos h2] at hc
      dsimp only at hc
      rcases List.mem_append.mp hc with hc | hc
      · exact List.take_subset _ _ hc
      · have hc2 := (List.takeWhile_prefix _).subset hc
        have hc3 := List.mem_reverse.mp hc2
        have hc4 := (List.takeWhile_prefix _).subset hc3
        exact List.mem_reverse.mp hc4
    · rw [if_neg h2] at hc
      exact hc
  · rw [if_neg h1] at hc
    by_cases h2 : ';' ∈ p
    · rw [if_pos h2] at hc
      exact (List.takeWhile_prefix _).subset hc
    · rw [if_neg h2] at hc
      exact hc

/-- The parameter split keeps the leading slash of a slash-headed path. -/
theorem splitParamsHead (q : List Char) (hne : q ≠ []) (hh : q.headD ' ' = '/') :
    (splitParams q).1.headD ' ' = '/' := by
  have hmem : '/' ∈ q := by
    cases q with
    | nil => exact absurd rfl hne
    | cons a t =>
        simp only [List.headD_cons] at hh
        subst hh
        exact List.mem_cons_self _ _
  unfold splitParams
  rw [if_pos hmem]
  by_cases h2 : ';' ∈ (q.reverse.takeWhile (fun c => c != '/')).reverse
  · rw [if_pos h2]
    dsimp only
    have hlt : (q.reverse.takeWhile (fun c => c != '/')).reverse.length < q.length := by
      have hle : (q.reverse.takeWhile (fun c => c != '/')).length ≤ q.length := by
        calc (q.reverse.takeWhile (fun c => c != '/')).length
            ≤ q.reverse.length := (List.takeWhile_prefix _).sublist.length_le
          _ = q.length := List.length_reverse _
      rcases Nat.lt_or_ge (q.reverse.takeWhile (fun c => c != '/')).length q.length with hlt | hge
      · simpa using hlt
    
      · have heq : q.reverse.takeWhile (fun c => c != '/') = q.reverse := by
          refine (List.takeWhile_prefix _).eq_of_length ?_
          rw [List.length_reverse]
          omega
        have hbad := List.takeWhile_eq_self_iff.mp heq '/' (List.mem_reverse.mpr hmem)
        simp at hbad
    cases q with
    | nil => exact absurd rfl hne
    | cons a t =>
        simp only [List.headD_cons] at hh
        subst hh
        have hk : 0 < (('/' :: t).length - ((('/' :: t).reverse.takeWhile (fun c => c != '/')).reverse).length) := by
          omega
        rcases Nat.exists_eq_add_of_lt hk with ⟨k, hk2⟩
        rw [List.take_cons (by omega)]
        rfl
  · dsimp only
    rw [if_neg h2]
    exact hh

/-- Inversion facts for a successful urlparse with a nonempty netloc:
component character classes and the slash-headed (or empty) path. -/
theorem urlparseShape (l0 : List Char) (p : ParseResult)
    (h : urlparseCore l0 = some p) :
    netlocBracketsOk p.netloc = true ∧
    (∀ c ∈ p.scheme, isSchemeChar c = true ∧ Char.toLower c = c) ∧
    (p.scheme ≠ [] → (p.scheme.headD ' ').isAlpha = true) ∧
    (∀ c ∈ p.netloc, isNetlocDelim c = false ∧ isUnsafeChar c = false) ∧
    (∀ c ∈ p.path, (c = '#' → False) ∧ (c = '?' → False) ∧ isUnsafeChar c = false) ∧
    (p.netloc ≠ [] → p.path = [] ∨ p.path.headD ' ' = '/') := by
  unfold urlparseCore at h
  cases hsp : urlsplitCore l0 with
  | none => rw [hsp] at h; cases h
  | some r =>
      rw [hsp] at h
      dsimp only at h
      obtain ⟨f1, f2, f3, f4, f5, f6⟩ := urlsplitCoreFacts l0 r hsp
      by_cases hpar : r.scheme ∈ usesParams ∧ ';' ∈ r.path
      · rw [if_pos hpar] at h
        injection h with h2
        subst h2
        dsimp only
        refine ⟨f1, f2, f3, f4, ?_, ?_⟩
        · intro c hc
          exact f5 c (splitParamsSubset r.path c hc)
        · intro hnl
          rcases f6 hnl with hpe | hph
          · left
            rw [hpe]
            rfl
          · right
            refine splitParamsHead r.path ?_ hph
            intro he
            rw [he] at hpar
            exact absurd hpar.2 (by simp)
      · rw [if_neg hpar] at h
        injection h with h2
        subst h2
        exact ⟨f1, f2, f3, f4, f5, f6⟩

/-- Round trip: parsing a URL rebuilt from a well-formed scheme, netloc
and path recovers exactly those components, with empty params, query and
fragment. -/
theorem urlparseRoundtrip (scheme netloc path2 : List Char)
    (hs : scheme ≠ [])
    (hsc : ∀ c ∈ scheme, isSchemeChar c = true ∧ Char.toLower c = c)
    (hsh : (scheme.headD ' ').isAlpha = true)
    (hnb : netlocBracketsOk netloc = true)
    (hnd : ∀ c ∈ netloc, isNetlocDelim c = false ∧ isUnsafeChar c = false)
    (hp : ∀ c ∈ path2, (c = '#' → False) ∧ (c = '?' → False) ∧ isUnsafeChar c = false)
    (hph : path2 = [] ∨ path2.headD ' ' = '/')
    (hnoparams : scheme ∈ usesParams → ';' ∉ path2) :
    urlparseCore (scheme ++ ':' :: '/' :: '/' :: (netloc ++ path2)) =
      some ⟨scheme, netloc, path2, [], [], []⟩ := by
  have hsafeAll : ∀ c ∈ scheme ++ ':' :: '/' :: '/' :: (netloc ++ path2),
      isUnsafeChar c = false := by
    intro c hc
    rcases List.mem_append.mp hc with hc | hc
    · have h1 := (hsc c hc).1
      rcases schemeCharBounds c h1 with h2 | h2 | h2 | h2 | h2 | h2 <;>
        · have h3 : c.toNat ≠ 9 ∧ c.toNat ≠ 13 ∧ c.toNat ≠ 10 := by omega
          simp only [isUnsafeChar, Bool.or_eq_false_iff, beq_eq_false_iff_ne]
          refine ⟨⟨?_, ?_⟩, ?_⟩ <;> intro he <;> subst he <;> simp at h3
    · rcases List.mem_cons.mp hc with rfl | hc
      · rfl
      rcases List.mem_cons.mp hc with rfl | hc
      · rfl
      rcases List.mem_cons.mp hc with rfl | hc
      · rfl
      rcases List.mem_append.mp hc with hc | hc
      · exact (hnd c hc).2
      · exact (hp c hc).2.2
  have hsan : sanitizeUrl (scheme ++ ':' :: '/' :: '/' :: (netloc ++ path2)) =
      scheme ++ ':' :: '/' :: '/' :: (netloc ++ path2) := by
    refine sanitizeNoop _ hsafeAll (Or.inr ?_)
    cases scheme with
    | nil => exact absurd rfl hs
    | cons a t =>
        simp only [List.cons_append, List.headD_cons]
        simp only [List.headD_cons] at hsh
        have h2 : 65 ≤ a.toNat ∧ a.toNat ≤ 90 ∨ 97 ≤ a.toNat ∧ a.toNat ≤ 122 := by
          simp only [Char.isAlpha, Bool.or_eq_true] at hsh
          rcases hsh with h | h
          · exact Or.inl ((isUpperIff a).mp h)
          · exact Or.inr ((isLowerIff a).mp h)
        simp only [isC0OrSpace, decide_eq_false_iff_not]
        omega
  have hsplit : splitScheme (scheme ++ ':' :: '/' :: '/' :: (netloc ++ path2)) =
      (scheme, '/' :: '/' :: (netloc ++ path2)) :=
    splitSchemeExact scheme _ hs hsc hsh
  have hnl : splitNetloc (netloc ++ path2) = (netloc, path2) := by
    refine splitNetlocExact netloc path2 (fun c hc => (hnd c hc).1) ?_
    rcases hph with rfl | hph
    · exact Or.inl rfl
    · right
      cases path2 with
      | nil => simp at hph
      | cons a t =>
          simp only [List.headD_cons] at hph ⊢
          subst hph
          rfl
  have hpathNoHash : ∀ c ∈ path2, (c != '#') = true := by
    intro c hc
    have := (hp c hc).1
    simp only [bne_iff_ne, ne_eq]
    exact this
  have hpathNoQm : ∀ c ∈ path2, (c != '?') = true := by
    intro c hc
    have := (hp c hc).2.1
    simp only [bne_iff_ne, ne_eq]
    exact this
  have hcore : urlsplitCore (scheme ++ ':' :: '/' :: '/' :: (netloc ++ path2)) =
      some ⟨scheme, netloc, path2, [], []⟩ := by
    unfold urlsplitCore
    rw [hsan]
    dsimp only
    rw [hsplit]
    dsimp only
    have hcond : List.take 2 ('/' :: '/' :: (netloc ++ path2)) = ['/', '/'] := rfl
    rw [if_pos hcond]
    rw [List.drop_succ_cons, List.drop_succ_cons, List.drop_zero, hnl]
    dsimp only
    rw [if_pos hnb]
    rw [List.takeWhile_eq_self_iff.mpr hpathNoHash,
      List.dropWhile_eq_nil_iff.mpr hpathNoHash,
      List.takeWhile_eq_self_iff.mpr hpathNoQm,
      List.dropWhile_eq_nil_iff.mpr hpathNoQm]
    rfl
  unfold urlparseCore
  rw [hcore]
  dsimp only
  rw [if_neg]
  intro hpar
  exact hnoparams hpar.1 hpar.2

/-- Rebuilding from a nonempty scheme, a nonempty netloc and an empty or
slash-headed path is plain concatenation. -/
theorem urlunsplitSNPEq (scheme netloc path : List Char)
    (hs : scheme ≠ []) (hn : netloc ≠ [])
    (hph : path = [] ∨ path.headD ' ' = '/') :
    urlunsplitSNP scheme netloc path =
      scheme ++ ':' :: '/' :: '/' :: (netloc ++ path) := by
  unfold urlunsplitSNP
  rw [if_pos (Or.inl hn)]
  have hurl1 : (if path ≠ [] ∧ path.headD ' ' ≠ '/' then '/' :: path else path) = path := by
    rcases hph with rfl | hph
    · rw [if_neg]
      intro hcon
      exact hcon.1 rfl
    · rw [if_neg]
      intro hcon
      exact hcon.2 hph
  rw [hurl1, if_pos hs]

/-- The last character of the rebuilt URL with an empty path is the last
character of the netloc, which is never a slash. -/
theorem rebuiltGetLastNil (scheme netloc : List Char) (hn : netloc ≠ [])
    (hnd : ∀ c ∈ netloc, isNetlocDelim c = false) :
    (scheme ++ ':' :: '/' :: '/' :: (netloc ++ ([] : List Char))).getLast? ≠ some '/' := by
  intro hcon
  have hassoc : scheme ++ ':' :: '/' :: '/' :: (netloc ++ ([] : List Char)) =
      (scheme ++ [':', '/', '/']) ++ netloc := by
    simp
  rw [hassoc, List.getLast?_append_of_ne_nil _ hn, List.getLast?_eq_getLast netloc hn] at hcon
  have h2 : '/' ∈ netloc := by
    have h3 := List.getLast_mem hn
    rw [Option.some.injEq] at hcon
    rw [hcon] at h3
    exact h3
  have := hnd '/' h2
  simp [isNetlocDelim] at this

/-- The last character of the rebuilt URL with a nonempty path is the
last character of the path. -/
theorem rebuiltGetLastCons (scheme netloc path : List Char) (hp : path ≠ []) :
    (scheme ++ ':' :: '/' :: '/' :: (netloc ++ path)).getLast? = path.getLast? := by
  have hassoc : scheme ++ ':' :: '/' :: '/' :: (netloc ++ path) =
      (scheme ++ [':', '/', '/'] ++ netloc) ++ path := by
    simp
  rw [hassoc, List.getLast?_append_of_ne_nil _ hp]

/-- Character-level description of the normalizer output on a parsed URL
with scheme and netloc: the rebuilt URL with the strip applied to the
path component. -/
theorem normalizeEq (s : String) (p : ParseResult)
    (h : urlparse s = some p) (hs : p.scheme ≠ []) (hn : p.netloc ≠ [])
    (hph : p.path = [] ∨ p.path.headD ' ' = '/')
    (hnd : ∀ c ∈ p.netloc, isNetlocDelim c = false) :
    (normalize_url s).data =
      p.scheme ++ ':' :: '/' :: '/' :: (p.netloc ++ stripPath p) := by
  unfold normalize_url
  rw [h]
  dsimp only
  rw [if_neg (by simp [hs, hn])]
  dsimp only
  have hre := urlunsplitSNPEq p.scheme p.netloc p.path hs hn hph
  unfold stripPath
  by_cases hcond : (urlunsplitSNP p.scheme p.netloc p.path).getLast? = some '/' ∧
      p.path ≠ ['/']
  · rw [if_pos hcond, if_pos hcond, hre]
    have hpne : p.path ≠ [] := by
      intro he
      rw [hre, he] at hcond
      exact rebuiltGetLastNil p.scheme p.netloc hn hnd hcond.1
    cases hpath : p.path with
    | nil => exact absurd hpath hpne
    | cons c cs =>
        have hassoc : p.scheme ++ ':' :: '/' :: '/' :: (p.netloc ++ c :: cs) =
            (p.scheme ++ ':' :: '/' :: '/' :: p.netloc) ++ c :: cs := by
          simp
        rw [hassoc, List.dropLast_append_cons]
        simp
  · rw [if_neg hcond, if_neg hcond, hre]

/-- The stripped path draws its characters from the parsed path. -/
theorem stripPathSubset (p : ParseResult) : ∀ c ∈ stripPath p, c ∈ p.path := by
  intro c hc
  unfold stripPath at hc
  by_cases hcond : (urlunsplitSNP p.scheme p.netloc p.path).getLast? = some '/' ∧
      p.path ≠ ['/']
  · rw [if_pos hcond] at hc
    exact (List.dropLast_prefix _).subset hc
  · rw [if_neg hcond] at hc
    exact hc

/-- The strip keeps the path empty or slash-headed. -/
theorem stripPathHead (p : ParseResult) (hph : p.path = [] ∨ p.path.headD ' ' = '/') :
    stripPath p = [] ∨ (stripPath p).headD ' ' = '/' := by
  unfold stripPath
  by_cases hcond : (urlunsplitSNP p.scheme p.netloc p.path).getLast? = some '/' ∧
      p.path ≠ ['/']
  · rw [if_pos hcond]
    rcases hph with he | hph
    · rw [he]
      exact Or.inl rfl
    · cases hp : p.path with
      | nil => exact Or.inl rfl
      | cons a t =>
          rw [hp] at hph
          simp only [List.headD_cons] at hph
          subst hph
          cases t with
          | nil => exact Or.inl rfl
          | cons b u => exact Or.inr rfl
  · rw [if_neg hcond]
    exact hph

/-- The normalizer output never ends in a slash-stripping state again:
under the no-double-slash and no-parameter side conditions, parsing the
output recovers the components and rebuilding them reproduces the output
exactly. -/
theorem normalizeIdem (s : String) (p : ParseResult)
    (h : urlparse s = some p) (hs : p.scheme ≠ []) (hn : p.netloc ≠ [])
    (hA : (stripPath p).getLast? ≠ some '/' ∨ stripPath p = ['/'])
    (hB : p.scheme ∈ usesParams → ';' ∉ stripPath p) :
    normalize_url (normalize_url s) = normalize_url s := by
  obtain ⟨f1, f2, f3, f4, f5, f6⟩ := urlparseShape s.data p h
  have hEq : (normalize_url s).data =
      p.scheme ++ ':' :: '/' :: '/' :: (p.netloc ++ stripPath p) :=
    normalizeEq s p h hs hn (f6 hn) (fun c hc => (f4 c hc).1)
  have hph2 := stripPathHead p (f6 hn)
  have hparse2 : urlparse (normalize_url s) =
      some ⟨p.scheme, p.netloc, stripPath p, [], [], []⟩ := by
    unfold urlparse
    rw [hEq]
    exact urlparseRoundtrip p.scheme p.netloc (stripPath p) hs f2 (f3 hs) f1 f4
      (fun c hc => f5 c (stripPathSubset p c hc)) hph2 hB
  have hre2 := urlunsplitSNPEq p.scheme p.netloc (stripPath p) hs hn hph2
  have hnostrip : ¬((urlunsplitSNP p.scheme p.netloc (stripPath p)).getLast? = some '/' ∧
      stripPath p ≠ ['/']) := by
    rcases hA with hA | hA
    · intro hcon
      rw [hre2] at hcon
      by_cases hsp : stripPath p = []
      · rw [hsp] at hcon
        exact rebuiltGetLastNil p.scheme p.netloc hn
          (fun c hc => (f4 c hc).1) hcon.1
      · have h2 := rebuiltGetLastCons p.scheme p.netloc (stripPath p) hsp
        rw [h2] at hcon
        exact hA hcon.1
    · intro hcon
      exact hcon.2 hA
  set t := normalize_url s with ht
  unfold normalize_url
  rw [hparse2]
  dsimp only
  rw [if_neg (by simp [hs, hn])]
  rw [if_neg hnostrip, hre2]
  apply String.ext
  rw [hEq]

/-- The normalizer output contains no question mark and no hash: the
query and fragment are dropped. -/
theorem normalizeNoQF (s : String) (p : ParseResult)
    (h : urlparse s = some p) (hs : p.scheme ≠ []) (hn : p.netloc ≠ []) :
    '?' ∉ (normalize_url s).data ∧ '#' ∉ (normalize_url s).data := by
  obtain ⟨f1, f2, f3, f4, f5, f6⟩ := urlparseShape s.data p h
  have hEq : (normalize_url s).data =
      p.scheme ++ ':' :: '/' :: '/' :: (p.netloc ++ stripPath p) :=
    normalizeEq s p h hs hn (f6 hn) (fun c hc => (f4 c hc).1)
  have hgen : ∀ d : Char, d ∈ (normalize_url s).data →
      isSchemeChar d = true ∨ d = ':' ∨ d = '/' ∨ d ∈ p.netloc ∨ d ∈ p.path := by
    intro d hd
    rw [hEq] at hd
    rcases List.mem_append.mp hd with hc | hc
    · exact Or.inl (f2 d hc).1
    · rcases List.mem_cons.mp hc with rfl | hc
      · exact Or.inr (Or.inl rfl)
      · rcases List.mem_cons.mp hc with rfl | hc
        · exact Or.inr (Or.inr (Or.inl rfl))
        · rcases List.mem_cons.mp hc with rfl | hc
          · exact Or.inr (Or.inr (Or.inl rfl))
          · rcases List.mem_append.mp hc with hc | hc
            · exact Or.inr (Or.inr (Or.inr (Or.inl hc)))
            · exact Or.inr (Or.inr (Or.inr (Or.inr (stripPathSubset p d hc))))
  constructor
  · intro hmem
    rcases hgen _ hmem with h1 | h1 | h1 | h1 | h1
    · exact absurd h1 (by decide)
    · exact absurd h1 (by decide)
    · exact absurd h1 (by decide)
    · exact absurd (f4 _ h1).1 (by decide)
    · exact (f5 _ h1).2.1 rfl
  · intro hmem
    rcases hgen _ hmem with h1 | h1 | h1 | h1 | h1
    · exact absurd h1 (by decide)
    · exact absurd h1 (by decide)
    · exact absurd h1 (by decide)
    · exact absurd (f4 _ h1).1 (by decide)
    · exact (f5 _ h1).1 rfl

/-- On a parse failure the normalizer returns its input unchanged. -/
theorem normalizeNoneUnchanged (s : String) (h : urlparse s = none) :
    normalize_url s = s := by
  unfold normalize_url
  rw [h]

/-- With an empty scheme or netloc the normalizer returns its input
unchanged. -/
theorem normalizeEmptyUnchanged (s : String) (p : ParseResult)
    (h : urlparse s = some p) (he : p.scheme = [] ∨ p.netloc = []) :
    normalize_url s = s := by
  unfold normalize_url
  rw [h]
  dsimp only
  rw [if_pos he]

/-- C4 counterexample: the normalizer is not idempotent.  On the input
http://a/b// one application strips exactly one trailing slash, giving
http://a/b/, and a second application strips another, giving http://a/b,
so normalize_url (normalize_url u) differs from normalize_url u. -/
theorem C4_normalizer_counterexample :
    normalize_url "http://a/b//" = "http://a/b/" ∧
    normalize_url (normalize_url "http://a/b//") = "http://a/b" ∧
    normalize_url (normalize_url "http://a/b//") ≠ normalize_url "http://a/b//" := by
  exact ⟨by decide, by decide, by decide⟩

/-- C4 amended: on a parse failure, or when the scheme or the host is
absent, the input is returned unchanged (and the total function never
raises); on a URL with scheme and host the output is exactly scheme,
colon, two slashes, host, and the path with one trailing slash stripped
unless the path is the root, with no question mark and no hash in the
output; and the normalizer is idempotent whenever the once-stripped path
does not itself end in a slash (other than as the root) and carries no
semicolon parameters for a params-splitting scheme — in general it is
not idempotent. -/
theorem C4_normalizer_amended :
    (∀ s, urlparse s = none → normalize_url s = s) ∧
    (∀ s p, urlparse s = some p → p.scheme = [] ∨ p.netloc = [] →
      normalize_url s = s) ∧
    (∀ s p, urlparse s = some p → p.scheme ≠ [] → p.netloc ≠ [] →
      (normalize_url s).data =
        p.scheme ++ ':' :: '/' :: '/' :: (p.netloc ++ stripPath p) ∧
      '?' ∉ (normalize_url s).data ∧ '#' ∉ (normalize_url s).data) ∧
    (∀ s p, urlparse s = some p → p.scheme ≠ [] → p.netloc ≠ [] →
      ((stripPath p).getLast? ≠ some '/' ∨ stripPath p = ['/']) →
      (p.scheme ∈ usesParams → ';' ∉ stripPath p) →
      normalize_url (normalize_url s) = normalize_url s) := by
  refine ⟨normalizeNoneUnchanged, normalizeEmptyUnchanged, ?_, normalizeIdem⟩
  intro s p h hs hn
  obtain ⟨f1, f2, f3, f4, f5, f6⟩ := urlparseShape s.data p h
  exact ⟨normalizeEq s p h hs hn (f6 hn) (fun c hc => (f4 c hc).1),
    normalizeNoQF s p h hs hn⟩

/-- Witness for C4 amended on concrete inputs: a bracket error returns
the input, a scheme-less string returns the input, a URL with query and
fragment is rebuilt without them, and the result is a fixed point. -/
theorem C4_normalizer_amended_witness :
    (urlparse "http://[a/b" = none ∧ normalize_url "http://[a/b" = "http://[a/b") ∧
    (normalize_url "nourl" = "nourl") ∧
    ((normalize_url "http://a/b?q#f").data =
        ['h', 't', 't', 'p'] ++ ':' :: '/' :: '/' ::
          (['a'] ++ stripPath ⟨['h', 't', 't', 'p'], ['a'], ['/', 'b'], [], ['q'], ['f']⟩) ∧
      '?' ∉ (normalize_url "http://a/b?q#f").data ∧
      '#' ∉ (normalize_url "http://a/b?q#f").data) ∧
    normalize_url (normalize_url "http://a/b?q#f") = normalize_url "http://a/b?q#f" := by
  refine ⟨⟨by decide, C4_normalizer_amended.1 "http://[a/b" (by decide)⟩,
    C4_normalizer_amended.2.1 "nourl"
      ⟨[], [], ['n', 'o', 'u', 'r', 'l'], [], [], []⟩ (by decide) (Or.inl rfl),
    C4_normalizer_amended.2.2.1 "http://a/b?q#f"
      ⟨['h', 't', 't', 'p'], ['a'], ['/', 'b'], [], ['q'], ['f']⟩
      (by decide) (by decide) (by decide),
    C4_normalizer_amended.2.2.2 "http://a/b?q#f"
      ⟨['h', 't', 't', 'p'], ['a'], ['/', 'b'], [], ['q'], ['f']⟩
      (by decide) (by decide) (by decide) (by decide) (by decide)⟩

end WebUI
